import Mathlib

/-!
# funclub: word counting with a fixed-capacity open-addressing hash table

Shallow embedding of `funclub.c`.

* A `char` is a byte (`Fin 256`); where the C code converts a `char` to a wider
  integer the byte is read as a signed char (two's complement), as on x86-64.
* `uint32_t` arithmetic is `Nat` arithmetic reduced modulo `2^32`, `size_t`
  arithmetic is reduced modulo `2^64` (LP64).
* The global `table` becomes an explicit state `Table`; a pointer to a bucket is
  the index of the bucket in the table.
* `assert` is enabled (the source does not define `NDEBUG`): a failed assertion
  ends the run, which the embedding reports as a `Failure`.
* The macro `unlikely` of `<defy/expect>` is not part of the source tree; where its
  value matters, in the guard of `parseToken`, it is a parameter.
* The array `char lcs[len]` of `parseToken` is allocated on a stack of `STACK_SIZE`
  bytes, and `mmap` fails on a file of length 0.
-/

namespace Funclub

/-! ## Data model -/

/-- One byte of memory, the representation of a C `char`. -/
abbrev Byte := Fin 256

/-- The number of elements of `key` in `struct Bucket`:
`128 - sizeof (uint32_t) - sizeof (uint16_t)`. -/
def KEY_SIZE : Nat := 128 - 4 - 2

/-- The number of buckets of `table`: `sizeof table / sizeof *table`. -/
def CAPACITY : Nat := 2097152 + 1

/-- Hash table bucket structure (`struct Bucket`). -/
structure Bucket where
  /-- Value (word count), a `uint32_t`. -/
  val : Nat
  /-- Key length, a `uint16_t`. -/
  len : Nat
  /-- Key, an array of `KEY_SIZE` chars. -/
  key : List Byte
deriving DecidableEq, Repr

/-- The hash table: the bucket stored at each index. Only the indices below
`CAPACITY` are ever read or written. -/
abbrev Table := Nat → Bucket

/-- The zero-initialised bucket. -/
def zeroBucket : Bucket := ⟨0, 0, List.replicate KEY_SIZE 0⟩

/-- The table at program start: `static struct Bucket table[2097152 + 1] = { }`. -/
def table : Table := fun _ => zeroBucket

/-- The ways in which the program ends a run early. -/
inductive Failure where
  /-- The assertion at the start of `lower` failed. -/
  | assertLower
  /-- The assertion `len <= sizeof table->key` at the start of `lookup` failed. -/
  | assertLen
  /-- The guard of `parseToken` printed its message and called `exit`. -/
  | tokenTooLong
  /-- The function `lookup` returned the null pointer with `errno = ENOMEM`. -/
  | enomem
  /-- The array `char lcs[len]` of `parseToken` did not fit the stack. -/
  | stackOverflow
  /-- The call of `mmap` in `main` failed. -/
  | mmap
deriving DecidableEq, Repr

deriving instance DecidableEq for Except

/-! ## Machine integers -/

/-- Reduction to a `uint32_t`. -/
def u32 (n : Nat) : Nat := n % 4294967296

/-- Reduction to a 64-bit `size_t`. -/
def u64 (n : Nat) : Nat := n % 18446744073709551616

/-- The value of a `char` as a signed integer. -/
def charInt (c : Byte) : Int := if c.val < 128 then (c.val : Int) else (c.val : Int) - 256

/-- The conversion `(uint32_t) c` of a (signed) `char`. -/
def charU32 (c : Byte) : Nat := if c.val < 128 then c.val else c.val + (4294967296 - 256)

/-! ## Hash function -/

/-- Extract 32bit word from input:
`((((uint32_t) (data)[1]) << 8) + ((uint32_t) (data)[0]))`. -/
def extract (data : List Byte) : Nat :=
  u32 (u32 (charU32 (data.getD 1 0) <<< 8) + charU32 (data.getD 0 0))

/-- The `while (len--)` loop of `hash`: `len` counts the remaining 4-byte groups.
Returns the accumulator and the advanced `data` pointer. -/
def hashLoop : Nat → List Byte → Nat → Nat × List Byte
  | 0, data, hash => (hash, data)
  | len + 1, data, hash =>
    let hash1 := u32 (hash + extract data)
    let temp := u32 (extract (data.drop 2) <<< 11) ^^^ hash1
    let hash2 := u32 (hash1 <<< 16) ^^^ temp
    let hash3 := u32 (hash2 + (hash2 >>> 11))
    hashLoop len (data.drop 4) hash3

/-- The `switch (rem)` of `hash`. -/
def hashRem (rem : Nat) (data : List Byte) (hash : Nat) : Nat :=
  if rem = 3 then
    let hash1 := u32 (hash + extract data)
    let hash2 := hash1 ^^^ u32 (hash1 <<< 16)
    let hash3 := hash2 ^^^ u32 (charU32 (data.getD 2 0) <<< 18)
    u32 (hash3 + (hash3 >>> 11))
  else if rem = 2 then
    let hash1 := u32 (hash + extract data)
    let hash2 := hash1 ^^^ u32 (hash1 <<< 11)
    u32 (hash2 + (hash2 >>> 17))
  else if rem = 1 then
    let hash1 := u32 (hash + charU32 (data.getD 0 0))
    let hash2 := hash1 ^^^ u32 (hash1 <<< 10)
    u32 (hash2 + (hash2 >>> 1))
  else hash

/-- The final six steps of `hash`. -/
def hashFinal (hash : Nat) : Nat :=
  let h1 := hash ^^^ u32 (hash <<< 3)
  let h2 := u32 (h1 + (h1 >>> 5))
  let h3 := h2 ^^^ u32 (h2 <<< 4)
  let h4 := u32 (h3 + (h3 >>> 17))
  let h5 := h4 ^^^ u32 (h4 <<< 25)
  u32 (h5 + (h5 >>> 6))

/-- Hash function: `hash(data, len)` with `len` the length of `data`. -/
def hash (data : List Byte) : Nat :=
  let len := data.length
  let rem := len &&& 3
  let r := hashLoop (len >>> 2) data (u32 len)
  hashFinal (hashRem rem r.2 r.1)

/-! ## Table operations -/

/-- The macro `flip(integer)`: `(((integer) % 2) ? -1 : 1)`, an `int`. -/
def flip (integer : Nat) : Int := if integer % 2 ≠ 0 then -1 else 1

/-- The conversion of an `int` to `size_t`. -/
def sizeOfInt (x : Int) : Nat := (x % 18446744073709551616).toNat

/-- The index computed at the end of iteration `iter` of the loop of `lookup`:
`(index + flip(iter) * (iter/2) * (iter/2)) % (sizeof table / sizeof *table)`,
evaluated in `size_t`. -/
def nextIndex (index iter : Nat) : Nat :=
  u64 (index + u64 (u64 (sizeOfInt (flip iter) * (iter / 2)) * (iter / 2))) % CAPACITY

/-- The call `memcpy(dst, src, n)`: the first `n` bytes of `dst` are replaced. -/
def memcpy (dst src : List Byte) (n : Nat) : List Byte := src.take n ++ dst.drop n

/-- The call `memcmp(a, b, n)`; only whether the result is zero is modelled. -/
def memcmp (a b : List Byte) (n : Nat) : Int := if a.take n = b.take n then 0 else 1

/-- Store bucket `b` at index `i`. -/
def setBucket (t : Table) (i : Nat) (b : Bucket) : Table :=
  fun j => if j = i then b else t j

/-- Lines 108 and 109: `memcpy(bucket->key, key, len); bucket->len = len;`
(the assignment converts `len` to `uint16_t`). -/
def claim (b : Bucket) (key : List Byte) (len : Nat) : Bucket :=
  { b with key := memcpy b.key key len, len := len % 65536 }

/-- The loop of `lookup`. `n` is the number of iterations still to run, `iter`
the loop counter and `cur` the index of `bucket`. -/
def lookupLoop (t : Table) (key : List Byte) (len index : Nat) :
    Nat → Nat → Nat → Table × Except Failure Nat
  | 0, _, _ => (t, .error .enomem)
  | n + 1, iter, cur =>
    if (t cur).len = 0 then
      (setBucket t cur (claim (t cur) key len), .ok cur)
    else if (t cur).len = len ∧ memcmp (t cur).key key len = 0 then
      (t, .ok cur)
    else
      lookupLoop t key len index n (iter + 1) (nextIndex index iter)

/-- Look up (possibly inserting) key in hash table: `lookup(key, len)` with `len`
the length of `key`. Returns the table afterwards and the index of the returned
bucket, or the failure. -/
def lookup (t : Table) (key : List Byte) : Table × Except Failure Nat :=
  let len := key.length
  if len ≤ KEY_SIZE then
    let index := hash key % CAPACITY
    lookupLoop t key len index 64 0 index
  else (t, .error .assertLen)

/-- The statement `bucket->val += 1`. -/
def increment (t : Table) (bucket : Nat) : Table :=
  setBucket t bucket { t bucket with val := u32 ((t bucket).val + 1) }

/-- Lines 139 to 146 of `parseToken`: insert into the hash table and count. In
`if (unlikely(!bucket))` the macro is used as a condition only, and a branch
hint does not change whether its argument is zero. -/
def insertToken (t : Table) (lcs : List Byte) : Table × Except Failure Unit :=
  match lookup t lcs with
  | (t1, .ok bucket) => (increment t1 bucket, .ok ())
  | (t1, .error f) => (t1, .error f)

/-- Convert character to lower-case; the assertion is checked first. -/
def lower (chr : Byte) : Except Failure Byte :=
  if (charInt chr > 65 ∧ charInt chr < 90) ∨ (charInt chr > 97 ∧ charInt chr < 122) then
    if 65 ≤ charInt chr ∧ charInt chr ≤ 90 then .ok (chr + 32) else .ok chr
  else .error .assertLower

/-- The loop of `parseToken` that converts the token to lower-case. -/
def lowerAll : List Byte → Except Failure (List Byte)
  | [] => .ok []
  | c :: rest =>
    match lower c with
    | .error f => .error f
    | .ok l =>
      match lowerAll rest with
      | .error f => .error f
      | .ok ls => .ok (l :: ls)

/-- The size of the stack of the process, on which `parseToken` allocates the
array `char lcs[len]`: 8 MiB, the default limit on Linux. A token that is longer
overflows the stack; the frames of the program itself are not counted. -/
def STACK_SIZE : Nat := 8 * 1024 * 1024

/-- Parse input token and put it into hash table. The macro `unlikely` of
`<defy/expect>` is not part of the source tree and is a parameter: it maps the
value of its argument to the value of the macro call, which the guard
`unlikely(len) > sizeof (table->key)` compares with the size of the key array.
When the guard does not fire, the array `char lcs[len]` is allocated on the stack
before the token is converted to lower-case. -/
def parseToken (unlikely : Nat → Nat) (t : Table) (tok : List Byte) :
    Table × Except Failure Unit :=
  if unlikely tok.length > KEY_SIZE then (t, .error .tokenTooLong)
  else if tok.length > STACK_SIZE then (t, .error .stackOverflow)
  else
    match lowerAll tok with
    | .error f => (t, .error f)
    | .ok lcs => insertToken t lcs

/-- Lower-case keys handed to lines 139 to 146 one after the other, as by
successive calls of `parseToken`; the run ends at the first failure. -/
def insertAll (t : Table) : List (List Byte) → Table × Except Failure Unit
  | [] => (t, .ok ())
  | lcs :: rest =>
    match insertToken t lcs with
    | (t1, .ok _) => insertAll t1 rest
    | (t1, .error f) => (t1, .error f)

/-! ## The ten most common tokens -/

/-- The loop over `jter` of `top` for the bucket `table + iter`, on the slots of
`topList` from the current `jter` to the last one. A slot holds `nil` (`none`) or
a pointer to a bucket (its index). -/
def topInsert (t : Table) (iter : Nat) : List (Option Nat) → List (Option Nat)
  | [] => []
  | none :: rest => some iter :: rest
  | some b :: rest =>
    if (t iter).val > (t b).val then (some iter :: some b :: rest).dropLast
    else some b :: topInsert t iter rest

/-- The body of the loop over `iter` of `top`. -/
def topStep (t : Table) (topList : List (Option Nat)) (iter : Nat) : List (Option Nat) :=
  if (t iter).len ≠ 0 then topInsert t iter topList else topList

/-- The array `topList` after the scan of the first `n` buckets of the table. -/
def topScan (t : Table) (n : Nat) : List (Option Nat) :=
  (List.range n).foldl (topStep t) (List.replicate 10 none)

/-- Determine the ten most common tokens: the buckets that `top` prints, in the
order of printing (slot 0 to slot 9, `nil` slots skipped). -/
def top (t : Table) : List Nat := (topScan t CAPACITY).filterMap id

/-! ## Notions used in the statements -/

/-- The bucket `b` stores `key`: the test of line 114 for a key of that length. -/
def Holds (b : Bucket) (key : List Byte) : Prop :=
  b.len = key.length ∧ b.key.take key.length = key

instance (b : Bucket) (key : List Byte) : Decidable (Holds b key) := by
  unfold Holds; infer_instance

/-- The index of the bucket that the loop of `lookup` examines in iteration `iter`. -/
def examined (index : Nat) : Nat → Nat
  | 0 => index
  | iter + 1 => nextIndex index iter

/-- One operation of the core on the table: a call of `lookup` with a non-empty
key, or the increment of an occupied bucket. -/
inductive Step : Table → Table → Prop where
  | lookup (t : Table) (key : List Byte) : key ≠ [] → Step t (lookup t key).1
  | increment (t : Table) (bucket : Nat) : (t bucket).len ≠ 0 → Step t (increment t bucket)

/-- The table `t2` is reached from `t1` by operations of the core. -/
def Evolves (t1 t2 : Table) : Prop := Relation.ReflTransGen Step t1 t2

/-- The table states reachable from the all-empty table. -/
def Reachable (t : Table) : Prop := Evolves table t

/-- The key is stored in no occupied bucket of the table. -/
def Absent (t : Table) (key : List Byte) : Prop :=
  ∀ i, (t i).len ≠ 0 → ¬ Holds (t i) key

/-- The invariant of the reachable tables: an empty bucket has count zero, and
an occupied bucket stores a key whose `lookup` returns this bucket. -/
def Inv (t : Table) : Prop :=
  (∀ i, (t i).len = 0 → (t i).val = 0) ∧
  (∀ i, (t i).len ≠ 0 → ∃ k, Holds (t i) k ∧ (lookup t k).2 = .ok i)

/-- The count recorded for the key `k` in the table is `c` as a `uint32_t`:
the key is absent when `c = 0`, and otherwise an occupied bucket stores `k` with
count `c % 2 ^ 32`. -/
def Counted (k : List Byte) (t : Table) (c : Nat) : Prop :=
  (c = 0 ∧ Absent t k) ∨
  (0 < c ∧ ∃ i, (t i).len ≠ 0 ∧ Holds (t i) k ∧ (t i).val = c % 2 ^ 32)

/-- The indices of the occupied buckets among the first `n`, in table-index order. -/
def occupied (t : Table) (n : Nat) : List Nat :=
  (List.range n).filter (fun i => decide ((t i).len ≠ 0))

/-- Insert bucket `x` into a ranking, before the first entry with a strictly
smaller count. -/
def rankInsert (t : Table) (x : Nat) : List Nat → List Nat
  | [] => [x]
  | b :: rest =>
    if (t x).val > (t b).val then x :: b :: rest else b :: rankInsert t x rest

/-- The ranking of the occupied buckets among the indices `is`, scanned in order,
starting from the ranking `l`. -/
def ranked (t : Table) (l : List Nat) (is : List Nat) : List Nat :=
  is.foldl (fun r i => if (t i).len ≠ 0 then rankInsert t i r else r) l

/-- An array of `k` slots holding the first `k` entries of `l`, then `nil`. -/
def slots : Nat → List Nat → List (Option Nat)
  | 0, _ => []
  | k + 1, [] => none :: slots k []
  | k + 1, b :: rest => some b :: slots k rest

/-- The result of `top` in the words of the specification: the first ten of the
occupied buckets, taken in table-index order and stably sorted by count
descending. -/
def topSpec (t : Table) : List Nat :=
  ((occupied t CAPACITY).mergeSort (fun a b => decide ((t b).val ≤ (t a).val))).take 10

/-- Bucket `a` ranks before bucket `b`: a higher count, or the same count and a
lower table index. -/
def RanksBefore (t : Table) (a b : Nat) : Prop :=
  (t b).val < (t a).val ∨ ((t a).val = (t b).val ∧ a < b)

instance (t : Table) : IsAntisymm Nat (RanksBefore t) :=
  ⟨fun a b h1 h2 => by unfold RanksBefore at h1 h2; omega⟩

/-- The `switch` of `lower`: the value returned when the assertion holds. -/
def toLower (chr : Byte) : Byte :=
  if 65 ≤ charInt chr ∧ charInt chr ≤ 90 then chr + 32 else chr

/-- The condition asserted at the start of `lower`. -/
def LowerAssertion (chr : Byte) : Prop :=
  (charInt chr > 65 ∧ charInt chr < 90) ∨ (charInt chr > 97 ∧ charInt chr < 122)

instance (chr : Byte) : Decidable (LowerAssertion chr) := by
  unfold LowerAssertion; infer_instance

/-! ## The tokenizer of `main` -/

/-- The labels `case 'A' ... 'Z': case 'a' ... 'z':` of the `switch` in `main`. -/
def isLetter (c : Byte) : Bool :=
  decide ((65 ≤ charInt c ∧ charInt c ≤ 90) ∨ (97 ≤ charInt c ∧ charInt c ≤ 122))

/-- The control flow of the tokenizer loop of `main` and of the statement after
it, with the table left out: the calls `parseToken(base + head, tail - head)` that
are made when every call returns, in order, each as the pair `(head, tail)`. `n`
is the number of bytes still to read, `len - tail`. The loop itself, which a call
that does not return ends, is `tokenLoop`. -/
def tokenSpans (base : List Byte) : Nat → Nat → Nat → List (Nat × Nat)
  | 0, head, tail => if tail > head then [(head, tail)] else []
  | n + 1, head, tail =>
    if isLetter (base.getD tail 0) then tokenSpans base n head (tail + 1)
    else
      (if tail > head then [(head, tail)] else []) ++ tokenSpans base n (tail + 1) (tail + 1)

/-- The bytes of the token of a call `parseToken(base + head, tail - head)`. -/
def token (base : List Byte) (span : Nat × Nat) : List Byte :=
  (base.drop span.1).take (span.2 - span.1)

/-- The tokens that `main` passes to `parseToken` for the input `base` when every
call returns. -/
def tokens (base : List Byte) : List (List Byte) :=
  (tokenSpans base base.length 0 0).map (token base)

/-- Successive calls of `parseToken`; the first failure ends the run. -/
def parseAll (unlikely : Nat → Nat) (t : Table) : List (List Byte) → Table × Except Failure Unit
  | [] => (t, .ok ())
  | tok :: rest =>
    match parseToken unlikely t tok with
    | (t1, .ok _) => parseAll unlikely t1 rest
    | (t1, .error f) => (t1, .error f)

/-- The tokenizer loop of `main` and the statement after it, from the state
`(head, tail)` and the table `t`. `n` is the number of bytes still to read,
`len - tail`. Returns the calls `parseToken(base + head, tail - head)` made, in
order, each as the pair `(head, tail)`, and the table with the outcome. A call of
`parseToken` that does not return ends the run: it is the last call. -/
def tokenLoop (unlikely : Nat → Nat) (base : List Byte) :
    Nat → Nat → Nat → Table → List (Nat × Nat) × (Table × Except Failure Unit)
  | 0, head, tail, t =>
    if tail > head then ([(head, tail)], parseToken unlikely t (token base (head, tail)))
    else ([], (t, .ok ()))
  | n + 1, head, tail, t =>
    if isLetter (base.getD tail 0) then tokenLoop unlikely base n head (tail + 1) t
    else if tail > head then
      match parseToken unlikely t (token base (head, tail)) with
      | (t1, .ok _) =>
        ((head, tail) :: (tokenLoop unlikely base n (tail + 1) (tail + 1) t1).1,
          (tokenLoop unlikely base n (tail + 1) (tail + 1) t1).2)
      | (t1, .error f) => ([(head, tail)], (t1, .error f))
    else tokenLoop unlikely base n (tail + 1) (tail + 1) t

/-- The run of `main` on the content `base` of the input file up to the call of
`top`: the calls of `parseToken` made, and the table after the last token or the
failure that ended the run. The call of `mmap` fails for a file of length 0. -/
def mainRun (unlikely : Nat → Nat) (base : List Byte) :
    List (Nat × Nat) × (Table × Except Failure Unit) :=
  if base.length = 0 then ([], (table, .error .mmap))
  else tokenLoop unlikely base base.length 0 0 table

/-- The table after the run of `main` up to the call of `top`, or the failure
that ended the run. -/
def mainTable (unlikely : Nat → Nat) (base : List Byte) : Table × Except Failure Unit :=
  (mainRun unlikely base).2

/-- The text `The quick brown fox the Quick` as bytes. -/
def exampleText : List Byte :=
  [84, 104, 101, 32, 113, 117, 105, 99, 107, 32, 98, 114, 111, 119, 110, 32,
   102, 111, 120, 32, 116, 104, 101, 32, 81, 117, 105, 99, 107]

/-- The text of 123 letters `b`, a space and a letter `b`. -/
def longText : List Byte := List.replicate 123 98 ++ [32, 98]

/-- The span `(head, tail)` is a maximal run of letters of `base`: it is not
empty, lies within the input, holds letters only, and is bounded on each side by
a byte that is not a letter or by an end of the input. -/
def MaximalRun (base : List Byte) (span : Nat × Nat) : Prop :=
  span.1 < span.2 ∧ span.2 ≤ base.length ∧
  (∀ i, span.1 ≤ i → i < span.2 → isLetter (base.getD i 0) = true) ∧
  (span.1 = 0 ∨ isLetter (base.getD (span.1 - 1) 0) = false) ∧
  (span.2 = base.length ∨ isLetter (base.getD span.2 0) = false)

/-- The invariant of the counts after `k` tokens: the counts of the buckets of the
table sum to `k`, an occupied bucket has count at least 1, an empty bucket has
count 0, and no index beyond the table is occupied. -/
def CountSum (t : Table) (k : Nat) : Prop :=
  (Finset.range CAPACITY).sum (fun i => (t i).val) = k ∧
  (∀ i, (t i).len ≠ 0 → 1 ≤ (t i).val) ∧
  (∀ i, (t i).len = 0 → (t i).val = 0) ∧
  (∀ i, CAPACITY ≤ i → (t i).len = 0)

/-! ## The probe sequence -/

/-- The offset `flip(iter) * (iter/2) * (iter/2)` of line 118 as an integer. -/
def offset (iter : Nat) : Int := flip iter * ((iter / 2 : Nat) : Int) * ((iter / 2 : Nat) : Int)

/-- The offset from the home bucket of the bucket examined in attempt `i` of the
loop of `lookup`: none in the first attempt, then the offset computed at the end
of the iteration before. -/
def attemptOffset : Nat → Int
  | 0 => 0
  | i + 1 => offset i

/-- The probed index in the words of the specification: the offset of attempt `i`
is `sign(i) * floor(i/2)^2` and the index is `(home + offset) mod CAPACITY`, the
non-negative remainder. -/
def probeSpec (home i : Nat) : Nat :=
  (((home : Int) + (if i % 2 = 0 then 1 else -1) * ((i / 2 : Nat) : Int) ^ 2) %
    (CAPACITY : Int)).toNat

/-! ## The hash function in the words of the specification -/

/-- The groups of four bytes and the remaining bytes, as the specification
describes them, all arithmetic modulo `2^32`. -/
def refMix : Nat → List Byte → Nat
  | h, b0 :: b1 :: b2 :: b3 :: rest =>
    let h1 := (h + (b0.val + 256 * b1.val)) % 2 ^ 32
    let t := (((b2.val + 256 * b3.val) <<< 11) % 2 ^ 32) ^^^ h1
    let h2 := ((h1 <<< 16) % 2 ^ 32) ^^^ t
    let h3 := (h2 + (h2 >>> 11)) % 2 ^ 32
    refMix h3 rest
  | h, [b0, b1, b2] =>
    let h1 := (h + (b0.val + 256 * b1.val)) % 2 ^ 32
    let h2 := h1 ^^^ ((h1 <<< 16) % 2 ^ 32)
    let h3 := h2 ^^^ ((b2.val <<< 18) % 2 ^ 32)
    (h3 + (h3 >>> 11)) % 2 ^ 32
  | h, [b0, b1] =>
    let h1 := (h + (b0.val + 256 * b1.val)) % 2 ^ 32
    let h2 := h1 ^^^ ((h1 <<< 11) % 2 ^ 32)
    (h2 + (h2 >>> 17)) % 2 ^ 32
  | h, [b0] =>
    let h1 := (h + b0.val) % 2 ^ 32
    let h2 := h1 ^^^ ((h1 <<< 10) % 2 ^ 32)
    (h2 + (h2 >>> 1)) % 2 ^ 32
  | h, [] => h

/-- The six-step avalanche, as the specification describes it. -/
def refAvalanche (h : Nat) : Nat :=
  let h1 := h ^^^ ((h <<< 3) % 2 ^ 32)
  let h2 := (h1 + (h1 >>> 5)) % 2 ^ 32
  let h3 := h2 ^^^ ((h2 <<< 4) % 2 ^ 32)
  let h4 := (h3 + (h3 >>> 17)) % 2 ^ 32
  let h5 := h4 ^^^ ((h4 <<< 25) % 2 ^ 32)
  (h5 + (h5 >>> 6)) % 2 ^ 32

/-- The reference definition of the hash of the specification: the accumulator
starts as the length, then the groups, the remaining bytes and the avalanche. -/
def hashRef (b : List Byte) : Nat :=
  refAvalanche (refMix (b.length % 2 ^ 32) b)

/-! # Theorems -/

/-! ## Lemmas on `lookup` -/

theorem setBucket_same (t : Table) (i : Nat) (b : Bucket) : setBucket t i b i = b := by
  simp [setBucket]

theorem setBucket_other (t : Table) (i j : Nat) (b : Bucket) (h : j ≠ i) :
    setBucket t i b j = t j := by
  simp [setBucket, h]

theorem memcmp_eq_zero (a b : List Byte) (n : Nat) :
    memcmp a b n = 0 ↔ a.take n = b.take n := by
  unfold memcmp
  split_ifs with h <;> simp [h]

/-- The test of line 114, for `len` the length of the key. -/
theorem match_iff_holds (b : Bucket) (key : List Byte) :
    (b.len = key.length ∧ memcmp b.key key key.length = 0) ↔ Holds b key := by
  simp [Holds, memcmp_eq_zero]

theorem holds_unique {b : Bucket} {k1 k2 : List Byte} (h1 : Holds b k1) (h2 : Holds b k2) :
    k1 = k2 := by
  have hl : k1.length = k2.length := h1.1.symm.trans h2.1
  rw [← h1.2, ← h2.2, hl]

theorem holds_claim (b : Bucket) (key : List Byte) (hk : key.length ≤ KEY_SIZE) :
    Holds (claim b key key.length) key := by
  have h : key.length % 65536 = key.length :=
    Nat.mod_eq_of_lt (lt_of_le_of_lt hk (by decide))
  simp [Holds, claim, memcpy, h]

theorem claim_val (b : Bucket) (key : List Byte) (len : Nat) : (claim b key len).val = b.val := rfl

theorem lookupLoop_empty (t : Table) (key : List Byte) (len index n iter cur : Nat)
    (h0 : (t cur).len = 0) :
    lookupLoop t key len index (n + 1) iter cur =
      (setBucket t cur (claim (t cur) key len), .ok cur) := by
  simp [lookupLoop, h0]

theorem lookupLoop_match (t : Table) (key : List Byte) (len index n iter cur : Nat)
    (h0 : (t cur).len ≠ 0) (hm : (t cur).len = len ∧ memcmp (t cur).key key len = 0) :
    lookupLoop t key len index (n + 1) iter cur = (t, .ok cur) := by
  unfold lookupLoop
  rw [if_neg h0, if_pos hm]

theorem lookupLoop_next (t : Table) (key : List Byte) (len index n iter cur : Nat)
    (h0 : (t cur).len ≠ 0) (hm : ¬ ((t cur).len = len ∧ memcmp (t cur).key key len = 0)) :
    lookupLoop t key len index (n + 1) iter cur =
      lookupLoop t key len index n (iter + 1) (nextIndex index iter) := by
  conv_lhs => unfold lookupLoop
  rw [if_neg h0, if_neg hm]

/-- The table after the loop of `lookup`, from its result: only a bucket that was
empty and is returned has been written. -/
theorem lookupLoop_fst (t : Table) (key : List Byte) (len index : Nat) :
    ∀ n iter cur, (lookupLoop t key len index n iter cur).1 =
      match (lookupLoop t key len index n iter cur).2 with
      | .ok p => if (t p).len = 0 then setBucket t p (claim (t p) key len) else t
      | .error _ => t
  | 0, _, _ => rfl
  | n + 1, iter, cur => by
    by_cases h0 : (t cur).len = 0
    · rw [lookupLoop_empty _ _ _ _ _ _ _ h0]
      simp [h0]
    · by_cases hm : (t cur).len = len ∧ memcmp (t cur).key key len = 0
      · rw [lookupLoop_match _ _ _ _ _ _ _ h0 hm]
        simp [h0]
      · rw [lookupLoop_next _ _ _ _ _ _ _ h0 hm]
        exact lookupLoop_fst t key len index n (iter + 1) (nextIndex index iter)

/-- A bucket returned by the loop of `lookup` was empty or matched the key. -/
theorem lookupLoop_ok (t : Table) (key : List Byte) (len index : Nat) (p : Nat) :
    ∀ n iter cur, (lookupLoop t key len index n iter cur).2 = .ok p →
      (t p).len = 0 ∨ ((t p).len ≠ 0 ∧ (t p).len = len ∧ memcmp (t p).key key len = 0)
  | 0, _, _ => by simp [lookupLoop]
  | n + 1, iter, cur => by
    by_cases h0 : (t cur).len = 0
    · rw [lookupLoop_empty _ _ _ _ _ _ _ h0]
      intro h
      cases h
      exact Or.inl h0
    · by_cases hm : (t cur).len = len ∧ memcmp (t cur).key key len = 0
      · rw [lookupLoop_match _ _ _ _ _ _ _ h0 hm]
        intro h
        cases h
        exact Or.inr ⟨h0, hm⟩
      · rw [lookupLoop_next _ _ _ _ _ _ _ h0 hm]
        exact lookupLoop_ok t key len index p n (iter + 1) (nextIndex index iter)

/-- The loop of `lookup` fails with `ENOMEM` only, and then leaves the table as it is. -/
theorem lookupLoop_error (t : Table) (key : List Byte) (len index : Nat) (f : Failure) :
    ∀ n iter cur, (lookupLoop t key len index n iter cur).2 = .error f → f = .enomem
  | 0, _, _ => by
    intro h
    cases h
    rfl
  | n + 1, iter, cur => by
    by_cases h0 : (t cur).len = 0
    · rw [lookupLoop_empty _ _ _ _ _ _ _ h0]
      intro h
      cases h
    · by_cases hm : (t cur).len = len ∧ memcmp (t cur).key key len = 0
      · rw [lookupLoop_match _ _ _ _ _ _ _ h0 hm]
        intro h
        cases h
      · rw [lookupLoop_next _ _ _ _ _ _ _ h0 hm]
        exact lookupLoop_error t key len index f n (iter + 1) (nextIndex index iter)

/-- The result of the loop depends on the lengths and keys of the buckets only. -/
theorem lookupLoop_congr (t t1 : Table) (key : List Byte) (len index : Nat)
    (h : ∀ i, (t1 i).len = (t i).len ∧ (t1 i).key = (t i).key) :
    ∀ n iter cur, (lookupLoop t1 key len index n iter cur).2 =
      (lookupLoop t key len index n iter cur).2
  | 0, _, _ => rfl
  | n + 1, iter, cur => by
    by_cases h0 : (t cur).len = 0
    · rw [lookupLoop_empty t _ _ _ _ _ _ h0,
        lookupLoop_empty t1 _ _ _ _ _ _ ((h cur).1.trans h0)]
    · by_cases hm : (t cur).len = len ∧ memcmp (t cur).key key len = 0
      · rw [lookupLoop_match t _ _ _ _ _ _ h0 hm,
          lookupLoop_match t1 _ _ _ _ _ _ (by rw [(h cur).1]; exact h0)
            (by rw [(h cur).1, (h cur).2]; exact hm)]
      · rw [lookupLoop_next t _ _ _ _ _ _ h0 hm,
          lookupLoop_next t1 _ _ _ _ _ _ (by rw [(h cur).1]; exact h0)
            (by rw [(h cur).1, (h cur).2]; exact hm)]
        exact lookupLoop_congr t t1 key len index h n (iter + 1) (nextIndex index iter)

/-- Writing an empty bucket does not change where an occupied bucket is found. -/
theorem lookupLoop_stable (t : Table) (key : List Byte) (len index : Nat) (p i : Nat)
    (b : Bucket) (hp : (t p).len = 0) (hi : (t i).len ≠ 0) :
    ∀ n iter cur, (lookupLoop t key len index n iter cur).2 = .ok i →
      (lookupLoop (setBucket t p b) key len index n iter cur).2 = .ok i
  | 0, _, _ => by simp [lookupLoop]
  | n + 1, iter, cur => by
    by_cases h0 : (t cur).len = 0
    · rw [lookupLoop_empty _ _ _ _ _ _ _ h0]
      intro h
      cases h
      exact absurd h0 hi
    · have hcp : cur ≠ p := fun e => h0 (e ▸ hp)
      have hc : setBucket t p b cur = t cur := setBucket_other t p cur b hcp
      by_cases hm : (t cur).len = len ∧ memcmp (t cur).key key len = 0
      · rw [lookupLoop_match t _ _ _ _ _ _ h0 hm,
          lookupLoop_match (setBucket t p b) _ _ _ _ _ _ (by rw [hc]; exact h0)
            (by rw [hc]; exact hm)]
        exact id
      · rw [lookupLoop_next t _ _ _ _ _ _ h0 hm,
          lookupLoop_next (setBucket t p b) _ _ _ _ _ _ (by rw [hc]; exact h0)
            (by rw [hc]; exact hm)]
        exact lookupLoop_stable t key len index p i b hp hi n (iter + 1) (nextIndex index iter)

/-- A key that claimed the empty bucket `p` is found there afterwards. -/
theorem lookupLoop_found (t : Table) (key : List Byte) (len index : Nat) (p : Nat)
    (b : Bucket) (hp : (t p).len = 0) (hb0 : b.len ≠ 0)
    (hb : b.len = len ∧ memcmp b.key key len = 0) :
    ∀ n iter cur, (lookupLoop t key len index n iter cur).2 = .ok p →
      (lookupLoop (setBucket t p b) key len index n iter cur).2 = .ok p
  | 0, _, _ => by simp [lookupLoop]
  | n + 1, iter, cur => by
    by_cases h0 : (t cur).len = 0
    · rw [lookupLoop_empty _ _ _ _ _ _ _ h0]
      intro h
      cases h
      have hc : setBucket t p b p = b := setBucket_same t p b
      rw [lookupLoop_match (setBucket t p b) _ _ _ _ _ _ (by rw [hc]; exact hb0)
        (by rw [hc]; exact hb)]
    · have hcp : cur ≠ p := fun e => h0 (e ▸ hp)
      have hc : setBucket t p b cur = t cur := setBucket_other t p cur b hcp
      by_cases hm : (t cur).len = len ∧ memcmp (t cur).key key len = 0
      · rw [lookupLoop_match t _ _ _ _ _ _ h0 hm]
        intro h
        cases h
        exact absurd rfl hcp
      · rw [lookupLoop_next t _ _ _ _ _ _ h0 hm,
          lookupLoop_next (setBucket t p b) _ _ _ _ _ _ (by rw [hc]; exact h0)
            (by rw [hc]; exact hm)]
        exact lookupLoop_found t key len index p b hp hb0 hb n (iter + 1) (nextIndex index iter)

theorem lookup_le (t : Table) (key : List Byte) (h : key.length ≤ KEY_SIZE) :
    lookup t key =
      lookupLoop t key key.length (hash key % CAPACITY) 64 0 (hash key % CAPACITY) := by
  simp [lookup, h]

theorem lookup_gt (t : Table) (key : List Byte) (h : ¬ key.length ≤ KEY_SIZE) :
    lookup t key = (t, .error .assertLen) := by
  simp [lookup, h]

/-- A successful `lookup` had a key that fits the key array. -/
theorem lookup_ok_le (t : Table) (key : List Byte) (p : Nat)
    (h : (lookup t key).2 = .ok p) : key.length ≤ KEY_SIZE := by
  by_contra hk
  rw [lookup_gt t key hk] at h
  cases h

/-- The table after `lookup`, from its result. -/
theorem lookup_fst (t : Table) (key : List Byte) :
    (lookup t key).1 =
      match (lookup t key).2 with
      | .ok p => if (t p).len = 0 then setBucket t p (claim (t p) key key.length) else t
      | .error _ => t := by
  by_cases hk : key.length ≤ KEY_SIZE
  · rw [lookup_le t key hk]
    exact lookupLoop_fst t key key.length _ 64 0 _
  · rw [lookup_gt t key hk]

theorem lookup_error (t : Table) (key : List Byte) (f : Failure)
    (h : (lookup t key).2 = .error f) : (lookup t key).1 = t := by
  rw [lookup_fst, h]

theorem lookup_ok_fst (t : Table) (key : List Byte) (p : Nat)
    (h : (lookup t key).2 = .ok p) :
    (lookup t key).1 = if (t p).len = 0 then setBucket t p (claim (t p) key key.length) else t := by
  rw [lookup_fst, h]

/-- The bucket returned by `lookup` was empty or stored the key. -/
theorem lookup_ok_cases (t : Table) (key : List Byte) (p : Nat)
    (h : (lookup t key).2 = .ok p) :
    (t p).len = 0 ∨ ((t p).len ≠ 0 ∧ Holds (t p) key) := by
  have hk := lookup_ok_le t key p h
  rw [lookup_le t key hk] at h
  rcases lookupLoop_ok t key key.length _ p 64 0 _ h with h0 | ⟨h0, hm⟩
  · exact Or.inl h0
  · exact Or.inr ⟨h0, (match_iff_holds _ _).1 hm⟩

/-- The function `lookup` leaves every occupied bucket as it is. -/
theorem lookup_occupied (t : Table) (key : List Byte) (i : Nat) (hi : (t i).len ≠ 0) :
    (lookup t key).1 i = t i := by
  rw [lookup_fst]
  cases hr : (lookup t key).2 with
  | error f => rfl
  | ok p =>
    by_cases h0 : (t p).len = 0
    · have hip : i ≠ p := fun e => hi (e ▸ h0)
      simp only [h0, if_true]
      exact setBucket_other t p i _ hip
    · simp only [h0, if_false]

/-- After a successful `lookup` of a non-empty key the returned bucket is occupied
and stores the key. -/
theorem lookup_holds (t : Table) (key : List Byte) (p : Nat) (hne : key ≠ [])
    (h : (lookup t key).2 = .ok p) :
    ((lookup t key).1 p).len ≠ 0 ∧ Holds ((lookup t key).1 p) key := by
  have hk := lookup_ok_le t key p h
  rw [lookup_ok_fst t key p h]
  rcases lookup_ok_cases t key p h with h0 | ⟨h0, hm⟩
  · simp only [h0, if_true, setBucket_same]
    have hc := holds_claim (t p) key hk
    refine ⟨?_, hc⟩
    rw [hc.1]
    exact fun e => hne (List.length_eq_zero.1 e)
  · simp only [h0, if_false]
    exact ⟨h0, hm⟩

theorem increment_len (t : Table) (j i : Nat) : (increment t j i).len = (t i).len := by
  unfold increment setBucket
  split_ifs with h
  · rw [h]
  · rfl

theorem increment_key (t : Table) (j i : Nat) : (increment t j i).key = (t i).key := by
  unfold increment setBucket
  split_ifs with h
  · rw [h]
  · rfl

theorem increment_other (t : Table) (j i : Nat) (h : i ≠ j) : increment t j i = t i := by
  simp [increment, setBucket, h]

theorem increment_val (t : Table) (j : Nat) : (increment t j j).val = u32 ((t j).val + 1) := by
  simp [increment, setBucket]

/-- The result of `lookup` depends on the lengths and keys of the buckets only. -/
theorem lookup_congr (t t1 : Table) (key : List Byte)
    (h : ∀ i, (t1 i).len = (t i).len ∧ (t1 i).key = (t i).key) :
    (lookup t1 key).2 = (lookup t key).2 := by
  by_cases hk : key.length ≤ KEY_SIZE
  · rw [lookup_le t key hk, lookup_le t1 key hk]
    exact lookupLoop_congr t t1 key _ _ h 64 0 _
  · rw [lookup_gt t key hk, lookup_gt t1 key hk]

/-! ## The invariant of the reachable tables -/

theorem inv_table : Inv table := by
  refine ⟨fun i _ => rfl, fun i hi => ?_⟩
  exact absurd rfl hi

theorem inv_lookup (t : Table) (key : List Byte) (hne : key ≠ []) (ht : Inv t) :
    Inv (lookup t key).1 := by
  cases hr : (lookup t key).2 with
  | error f => rw [lookup_error t key f hr]; exact ht
  | ok p =>
    have hk := lookup_ok_le t key p hr
    have hfst := lookup_ok_fst t key p hr
    by_cases h0 : (t p).len = 0
    · rw [if_pos h0] at hfst
      have hc := holds_claim (t p) key hk
      have hc0 : (claim (t p) key key.length).len ≠ 0 := by
        rw [hc.1]
        exact fun e => hne (List.length_eq_zero.1 e)
      rw [hfst]
      refine ⟨fun i hi => ?_, fun i hi => ?_⟩
      · by_cases hip : i = p
        · subst hip
          rw [setBucket_same] at hi
          exact absurd hi hc0
        · rw [setBucket_other _ _ _ _ hip] at hi ⊢
          exact ht.1 i hi
      · by_cases hip : i = p
        · subst hip
          rw [setBucket_same]
          refine ⟨key, hc, ?_⟩
          rw [lookup_le _ key hk]
          rw [lookup_le t key hk] at hr
          exact lookupLoop_found t key _ _ i _ h0 hc0 ((match_iff_holds _ _).2 hc) 64 0 _ hr
        · rw [setBucket_other _ _ _ _ hip] at hi ⊢
          obtain ⟨k, hk1, hk2⟩ := ht.2 i hi
          refine ⟨k, hk1, ?_⟩
          have hkl := lookup_ok_le t k i hk2
          rw [lookup_le _ k hkl]
          rw [lookup_le t k hkl] at hk2
          exact lookupLoop_stable t k _ _ p i _ h0 hi 64 0 _ hk2
    · rw [if_neg h0] at hfst
      rw [hfst]
      exact ht

theorem inv_increment (t : Table) (j : Nat) (hj : (t j).len ≠ 0) (ht : Inv t) :
    Inv (increment t j) := by
  refine ⟨fun i hi => ?_, fun i hi => ?_⟩
  · rw [increment_len] at hi
    have hij : i ≠ j := fun e => hj (e ▸ hi)
    rw [increment_other t j i hij]
    exact ht.1 i hi
  · rw [increment_len] at hi
    obtain ⟨k, hk1, hk2⟩ := ht.2 i hi
    refine ⟨k, ⟨?_, ?_⟩, ?_⟩
    · rw [increment_len]; exact hk1.1
    · rw [increment_key]; exact hk1.2
    · rw [lookup_congr t (increment t j) k (fun i => ⟨increment_len t j i, increment_key t j i⟩)]
      exact hk2

theorem inv_step {t t1 : Table} (h : Step t t1) (ht : Inv t) : Inv t1 := by
  cases h with
  | lookup key hne => exact inv_lookup t key hne ht
  | increment j hj => exact inv_increment t j hj ht

theorem inv_evolves {t t1 : Table} (h : Evolves t t1) (ht : Inv t) : Inv t1 := by
  induction h with
  | refl => exact ht
  | tail _ hs ih => exact inv_step hs ih

theorem inv_reachable {t : Table} (h : Reachable t) : Inv t := inv_evolves h inv_table

/-- An operation of the core leaves the length and the key of an occupied bucket. -/
theorem step_occupied {t t1 : Table} (h : Step t t1) (i : Nat) (hi : (t i).len ≠ 0) :
    (t1 i).len = (t i).len ∧ (t1 i).key = (t i).key := by
  cases h with
  | lookup key hne => rw [lookup_occupied t key i hi]; exact ⟨rfl, rfl⟩
  | increment j hj => exact ⟨increment_len t j i, increment_key t j i⟩

theorem evolves_occupied {t t1 : Table} (h : Evolves t t1) (i : Nat) (hi : (t i).len ≠ 0) :
    (t1 i).len = (t i).len ∧ (t1 i).key = (t i).key := by
  induction h with
  | refl => exact ⟨rfl, rfl⟩
  | tail _ hs ih =>
    have h1 := step_occupied hs i (by rw [ih.1]; exact hi)
    exact ⟨h1.1.trans ih.1, h1.2.trans ih.2⟩

theorem holds_of_eq {b b1 : Bucket} {key : List Byte} (h : b1.len = b.len ∧ b1.key = b.key)
    (hb : Holds b key) : Holds b1 key := by
  unfold Holds at *
  rw [h.1, h.2]
  exact hb

/-! ## Uniqueness of the bucket of a key -/

/-- C1: in a table reachable from the all-empty table, when `lookup` of the
non-empty key `k1` returns bucket `i1` and, after any further operations of the
core, `lookup` of the non-empty key `k2` returns bucket `i2`, then equal keys
(same length, same bytes) give `i1 = i2` and different keys give `i1 ≠ i2`. -/
theorem lookup_unique (t0 t2 : Table) (k1 k2 : List Byte) (i1 i2 : Nat)
    (h0 : Reachable t0) (hk1 : k1 ≠ []) (hk2 : k2 ≠ [])
    (h1 : (lookup t0 k1).2 = .ok i1) (hs : Evolves (lookup t0 k1).1 t2)
    (h2 : (lookup t2 k2).2 = .ok i2) :
    (k1 = k2 → i1 = i2) ∧ (k1 ≠ k2 → i1 ≠ i2) := by
  have hr1 : Reachable (lookup t0 k1).1 :=
    Relation.ReflTransGen.tail h0 (Step.lookup t0 k1 hk1)
  have hr2 : Reachable t2 := Relation.ReflTransGen.trans hr1 hs
  obtain ⟨ho1, hh1⟩ := lookup_holds t0 k1 i1 hk1 h1
  have he := evolves_occupied hs i1 ho1
  have ho2 : (t2 i1).len ≠ 0 := by rw [he.1]; exact ho1
  have hh2 : Holds (t2 i1) k1 := holds_of_eq he hh1
  constructor
  · intro hk
    obtain ⟨k, hk1', hk2'⟩ := (inv_reachable hr2).2 i1 ho2
    have hkk : k = k1 := holds_unique hk1' hh2
    rw [hkk, hk, h2] at hk2'
    cases hk2'
    rfl
  · intro hk hi
    obtain ⟨_, hh3⟩ := lookup_holds t2 k2 i2 hk2 h2
    have h4 : (lookup t2 k2).1 i1 = t2 i1 := lookup_occupied t2 k2 i1 ho2
    rw [← hi, h4] at hh3
    exact hk (holds_unique hh2 hh3)

/-- C1, at a concrete input: `the` is looked up in the all-empty table, its
bucket is incremented, then `q` is looked up. -/
theorem lookup_unique_witness :
    Reachable table ∧ ([116, 104, 101] : List Byte) ≠ [] ∧ ([113] : List Byte) ≠ [] ∧
    (lookup table [116, 104, 101]).2 = .ok 583978 ∧
    Evolves (lookup table [116, 104, 101]).1
      (increment (lookup table [116, 104, 101]).1 583978) ∧
    (lookup (increment (lookup table [116, 104, 101]).1 583978) [113]).2 = .ok 412327 ∧
    ((([116, 104, 101] : List Byte) = [113] → 583978 = 412327) ∧
      (([116, 104, 101] : List Byte) ≠ [113] → 583978 ≠ 412327)) :=
  have hs : Evolves (lookup table [116, 104, 101]).1
      (increment (lookup table [116, 104, 101]).1 583978) :=
    Relation.ReflTransGen.single (Step.increment _ 583978 (by decide))
  ⟨Relation.ReflTransGen.refl, by decide, by decide, by decide, hs, by decide,
    lookup_unique table _ [116, 104, 101] [113] 583978 412327 Relation.ReflTransGen.refl
      (by decide) (by decide) (by decide) hs (by decide)⟩

/-- C2: in a table reachable from the all-empty table, two occupied buckets at
different indices never hold the same key (same length and same bytes). -/
theorem no_duplicate_keys (t : Table) (i j : Nat) (h : Reachable t) (hij : i ≠ j)
    (hi : (t i).len ≠ 0) (hj : (t j).len ≠ 0) :
    ¬ ((t i).len = (t j).len ∧ (t i).key.take (t i).len = (t j).key.take (t j).len) := by
  rintro ⟨hl, hk⟩
  obtain ⟨ki, hi1, hi2⟩ := (inv_reachable h).2 i hi
  obtain ⟨kj, hj1, hj2⟩ := (inv_reachable h).2 j hj
  have hkk : ki = kj := by
    have e1 := hi1.2
    have e2 := hj1.2
    rw [← hi1.1] at e1
    rw [← hj1.1] at e2
    rw [← e1, ← e2]
    exact hk
  rw [hkk, hj2] at hi2
  cases hi2
  exact hij rfl

/-- C2, at a concrete input: the table after the lookups of `the` and `q`. -/
theorem no_duplicate_keys_witness :
    Reachable (lookup (lookup table [116, 104, 101]).1 [113]).1 ∧ 583978 ≠ 412327 ∧
    ((lookup (lookup table [116, 104, 101]).1 [113]).1 583978).len ≠ 0 ∧
    ((lookup (lookup table [116, 104, 101]).1 [113]).1 412327).len ≠ 0 ∧
    ¬ (((lookup (lookup table [116, 104, 101]).1 [113]).1 583978).len =
        ((lookup (lookup table [116, 104, 101]).1 [113]).1 412327).len ∧
      ((lookup (lookup table [116, 104, 101]).1 [113]).1 583978).key.take
          ((lookup (lookup table [116, 104, 101]).1 [113]).1 583978).len =
        ((lookup (lookup table [116, 104, 101]).1 [113]).1 412327).key.take
          ((lookup (lookup table [116, 104, 101]).1 [113]).1 412327).len) :=
  have hr : Reachable (lookup (lookup table [116, 104, 101]).1 [113]).1 :=
    Relation.ReflTransGen.tail
      (Relation.ReflTransGen.single (Step.lookup table [116, 104, 101] (by decide)))
      (Step.lookup _ [113] (by decide))
  ⟨hr, by decide, by decide, by decide,
    no_duplicate_keys _ 583978 412327 hr (by decide) (by decide) (by decide)⟩

/-! ## Frame properties -/

/-- C3: `lookup` leaves every occupied bucket as it is (key bytes, length and
count), it changes at most one bucket and only one that was empty; the increment
changes no other bucket and leaves the key and the length of its bucket, whose
count becomes the old count plus one as a `uint32_t`. -/
theorem core_frame (t : Table) (key : List Byte) (bucket : Nat) :
    (∀ i, (t i).len ≠ 0 → (lookup t key).1 i = t i) ∧
    ((lookup t key).1 = t ∨
      ∃ p, (t p).len = 0 ∧ ∀ i, i ≠ p → (lookup t key).1 i = t i) ∧
    (∀ i, i ≠ bucket → increment t bucket i = t i) ∧
    (increment t bucket bucket).len = (t bucket).len ∧
    (increment t bucket bucket).key = (t bucket).key ∧
    (increment t bucket bucket).val = ((t bucket).val + 1) % 2 ^ 32 := by
  refine ⟨fun i hi => lookup_occupied t key i hi, ?_, fun i hi => increment_other t bucket i hi,
    increment_len t bucket bucket, increment_key t bucket bucket, increment_val t bucket⟩
  rw [lookup_fst]
  cases (lookup t key).2 with
  | error f => exact Or.inl rfl
  | ok p =>
    by_cases h0 : (t p).len = 0
    · right
      refine ⟨p, h0, fun i hi => ?_⟩
      simp only [h0, if_true]
      exact setBucket_other t p i _ hi
    · left
      simp only [h0, if_false]

/-! ## Counting -/

theorem lookup_other (t : Table) (key : List Byte) (p j : Nat)
    (h : (lookup t key).2 = .ok p) (hj : j ≠ p) : (lookup t key).1 j = t j := by
  rw [lookup_ok_fst t key p h]
  split_ifs
  · exact setBucket_other t p j _ hj
  · rfl

/-- In a reachable table the `lookup` of a stored key returns its bucket. -/
theorem lookup_present (t : Table) (key : List Byte) (i : Nat) (hr : Reachable t)
    (hi : (t i).len ≠ 0) (hh : Holds (t i) key) : (lookup t key).2 = .ok i := by
  obtain ⟨k, hk1, hk2⟩ := (inv_reachable hr).2 i hi
  rw [← holds_unique hk1 hh]
  exact hk2

theorem insertToken_ok (t : Table) (lcs : List Byte) (p : Nat)
    (h : (lookup t lcs).2 = .ok p) :
    insertToken t lcs = (increment (lookup t lcs).1 p, .ok ()) := by
  unfold insertToken
  cases hl : lookup t lcs with
  | mk t1 r =>
    rw [hl] at h
    cases h
    rfl

theorem insertToken_error (t : Table) (lcs : List Byte) (f : Failure)
    (h : (lookup t lcs).2 = .error f) : insertToken t lcs = (t, .error f) := by
  have h1 := lookup_error t lcs f h
  unfold insertToken
  cases hl : lookup t lcs with
  | mk t1 r =>
    rw [hl] at h h1
    cases h
    cases h1
    rfl

/-- A successful `insertToken` is a successful `lookup` followed by the increment
of the returned bucket. -/
theorem insertToken_success (t : Table) (lcs : List Byte)
    (h : (insertToken t lcs).2 = .ok ()) :
    ∃ p, (lookup t lcs).2 = .ok p ∧ (insertToken t lcs).1 = increment (lookup t lcs).1 p := by
  cases hr : (lookup t lcs).2 with
  | error f =>
    rw [insertToken_error t lcs f hr] at h
    cases h
  | ok p => exact ⟨p, rfl, by rw [insertToken_ok t lcs p hr]⟩

theorem insertToken_reachable (t : Table) (lcs : List Byte) (hne : lcs ≠ [])
    (hr : Reachable t) : Reachable (insertToken t lcs).1 := by
  cases hl : (lookup t lcs).2 with
  | error f => rw [insertToken_error t lcs f hl]; exact hr
  | ok p =>
    rw [insertToken_ok t lcs p hl]
    exact Relation.ReflTransGen.tail
      (Relation.ReflTransGen.tail hr (Step.lookup t lcs hne))
      (Step.increment _ p (lookup_holds t lcs p hne hl).1)

theorem u32_succ (c : Nat) : u32 (c % 2 ^ 32 + 1) = (c + 1) % 2 ^ 32 := by
  unfold u32
  omega

/-- One token more: the count recorded for `k` follows the number of its
occurrences. -/
theorem counted_insertToken (k x : List Byte) (t : Table) (c : Nat) (hk : k ≠ [])
    (hx : x ≠ []) (hr : Reachable t) (hc : Counted k t c)
    (hok : (insertToken t x).2 = .ok ()) :
    Counted k (insertToken t x).1 (c + (if x = k then 1 else 0)) := by
  obtain ⟨p, hp, ht1⟩ := insertToken_success t x hok
  rw [ht1]
  obtain ⟨hpo, hph⟩ := lookup_holds t x p hx hp
  by_cases hxk : x = k
  · subst hxk
    rw [if_pos rfl]
    right
    refine ⟨Nat.succ_pos c, p, ?_, ?_, ?_⟩
    · rw [increment_len]; exact hpo
    · exact holds_of_eq ⟨increment_len _ p p, increment_key _ p p⟩ hph
    · rw [increment_val]
      rcases hc with ⟨hc0, ha⟩ | ⟨_, i, hi, hih, hiv⟩
      · rcases lookup_ok_cases t x p hp with h0 | ⟨h0, hm⟩
        · rw [lookup_ok_fst t x p hp, if_pos h0, setBucket_same, claim_val,
            (inv_reachable hr).1 p h0, hc0]
          rfl
        · exact absurd hm (ha p h0)
      · have hpi : (lookup t x).2 = .ok i := lookup_present t x i hr hi hih
        rw [hp] at hpi
        cases hpi
        rw [lookup_occupied t x p hi, hiv]
        exact u32_succ c
  · rw [if_neg hxk, Nat.add_zero]
    rcases hc with ⟨hc0, ha⟩ | ⟨hc0, i, hi, hih, hiv⟩
    · left
      refine ⟨hc0, fun j hj hjh => ?_⟩
      rw [increment_len] at hj
      have hjh1 : Holds ((lookup t x).1 j) k :=
        holds_of_eq ⟨(increment_len _ p j).symm, (increment_key _ p j).symm⟩ hjh
      by_cases hjp : j = p
      · subst hjp
        exact hxk (holds_unique hph hjh1)
      · rw [lookup_other t x p j hp hjp] at hj hjh1
        exact ha j hj hjh1
    · right
      have hpi : i ≠ p := by
        intro e
        subst e
        rw [lookup_occupied t x i hi] at hph
        exact hxk (holds_unique hph hih)
      refine ⟨hc0, i, ?_, ?_, ?_⟩
      · rw [increment_len, lookup_occupied t x i hi]; exact hi
      · rw [← lookup_occupied t x i hi] at hih
        exact holds_of_eq ⟨increment_len _ p i, increment_key _ p i⟩ hih
      · rw [increment_other _ p i hpi, lookup_occupied t x i hi]; exact hiv

theorem insertAll_cons_ok (t : Table) (x : List Byte) (rest : List (List Byte))
    (h : (insertToken t x).2 = .ok ()) :
    insertAll t (x :: rest) = insertAll (insertToken t x).1 rest := by
  conv_lhs => unfold insertAll
  cases hl : insertToken t x with
  | mk t1 r =>
    rw [hl] at h
    cases h
    rfl

theorem insertAll_cons_error (t : Table) (x : List Byte) (rest : List (List Byte))
    (f : Failure) (h : (insertToken t x).2 = .error f) :
    (insertAll t (x :: rest)).2 = .error f := by
  unfold insertAll
  cases hl : insertToken t x with
  | mk t1 r =>
    rw [hl] at h
    cases h
    rfl

/-- A run of tokens: the table stays reachable and the count recorded for `k`
is the number of occurrences of `k`, as a `uint32_t`. -/
theorem counted_insertAll (k : List Byte) (hk : k ≠ []) :
    ∀ (ks : List (List Byte)) (t : Table) (c : Nat), (∀ x ∈ ks, x ≠ []) → Reachable t →
      Counted k t c → (insertAll t ks).2 = .ok () →
      Reachable (insertAll t ks).1 ∧ Counted k (insertAll t ks).1 (c + ks.count k)
  | [], t, c, _, hr, hc, _ => ⟨hr, hc⟩
  | x :: rest, t, c, hne, hr, hc, hok => by
    have hx : x ≠ [] := hne x (List.mem_cons_self x rest)
    cases hs : (insertToken t x).2 with
    | error f =>
      rw [insertAll_cons_error t x rest f hs] at hok
      cases hok
    | ok u =>
      cases u
      rw [insertAll_cons_ok t x rest hs] at hok ⊢
      have h1 := counted_insertToken k x t c hk hx hr hc hs
      have h2 := counted_insertAll k hk rest (insertToken t x).1 _
        (fun y hy => hne y (List.mem_cons_of_mem x hy))
        (insertToken_reachable t x hx hr) h1 hok
      refine ⟨h2.1, ?_⟩
      have e : c + (x :: rest).count k = c + (if x = k then 1 else 0) + rest.count k := by
        rw [List.count_cons]
        simp only [beq_iff_eq]
        omega
      rw [e]
      exact h2.2

/-- C4 (amended): from a reachable table in which the non-empty key `k` is not
yet stored, after a run of successful insertions (`lookup` followed by the
increment) of non-empty keys in which `k` occurs `n` times, `1 ≤ n < 2 ^ 32`,
the bucket that `lookup` returns for `k` has count `n`. -/
theorem count_after_insertions (t : Table) (k : List Byte) (ks : List (List Byte)) (n : Nat)
    (hr : Reachable t) (hk : k ≠ []) (ha : Absent t k) (hks : ∀ x ∈ ks, x ≠ [])
    (hok : (insertAll t ks).2 = .ok ()) (hn : ks.count k = n) (h1 : 1 ≤ n)
    (h2 : n < 2 ^ 32) :
    ∃ i, (lookup (insertAll t ks).1 k).2 = .ok i ∧ ((insertAll t ks).1 i).val = n := by
  obtain ⟨hr1, hc⟩ := counted_insertAll k hk ks t 0 hks hr (Or.inl ⟨rfl, ha⟩) hok
  rw [Nat.zero_add, hn] at hc
  rcases hc with ⟨h0, _⟩ | ⟨_, i, hi, hih, hiv⟩
  · omega
  · refine ⟨i, lookup_present _ k i hr1 hi hih, ?_⟩
    rw [hiv]
    exact Nat.mod_eq_of_lt h2

/-- C4 (amended), at a concrete input: the keys `the`, `q`, `the` from the
all-empty table. -/
theorem count_after_insertions_witness :
    Reachable table ∧ ([116, 104, 101] : List Byte) ≠ [] ∧ Absent table [116, 104, 101] ∧
    (∀ x ∈ ([[116, 104, 101], [113], [116, 104, 101]] : List (List Byte)), x ≠ []) ∧
    (insertAll table [[116, 104, 101], [113], [116, 104, 101]]).2 = .ok () ∧
    ([[116, 104, 101], [113], [116, 104, 101]] : List (List Byte)).count [116, 104, 101] = 2 ∧
    1 ≤ 2 ∧ 2 < 2 ^ 32 ∧
    ∃ i, (lookup (insertAll table [[116, 104, 101], [113], [116, 104, 101]]).1
        [116, 104, 101]).2 = .ok i ∧
      ((insertAll table [[116, 104, 101], [113], [116, 104, 101]]).1 i).val = 2 :=
  have ha : Absent table [116, 104, 101] := fun i hi _ => hi rfl
  ⟨Relation.ReflTransGen.refl, by decide, ha, by decide, by decide, by decide, by decide,
    by decide,
    count_after_insertions table [116, 104, 101] [[116, 104, 101], [113], [116, 104, 101]] 2
      Relation.ReflTransGen.refl (by decide) ha (by decide) (by decide) (by decide)
      (by decide) (by decide)⟩

/-- Once the key is stored in a reachable table, every further insertion of it
succeeds. -/
theorem insertAll_replicate_ok (k : List Byte) (hk : k ≠ []) :
    ∀ (m : Nat) (t : Table), Reachable t → (∃ i, (t i).len ≠ 0 ∧ Holds (t i) k) →
      (insertAll t (List.replicate m k)).2 = .ok ()
  | 0, _, _, _ => rfl
  | m + 1, t, hr, ⟨i, hi, hih⟩ => by
    have hl := lookup_present t k i hr hi hih
    have hs : (insertToken t k).2 = .ok () := by rw [insertToken_ok t k i hl]
    rw [List.replicate_succ, insertAll_cons_ok t k _ hs]
    refine insertAll_replicate_ok k hk m _ (insertToken_reachable t k hk hr) ⟨i, ?_, ?_⟩
    · rw [insertToken_ok t k i hl, increment_len, lookup_occupied t k i hi]
      exact hi
    · rw [insertToken_ok t k i hl]
      rw [← lookup_occupied t k i hi] at hih
      exact holds_of_eq ⟨increment_len _ i i, increment_key _ i i⟩ hih

/-- C4, as stated, fails for `n = 2 ^ 32`: after `2 ^ 32` successful insertions
of the key `b` from the all-empty table, the bucket returned for `b` has count
`0`, not `2 ^ 32`. -/
theorem count_wraps_at_two_pow_32 :
    Reachable table ∧ ([98] : List Byte) ≠ [] ∧ Absent table [98] ∧
    (∀ x ∈ List.replicate 4294967296 ([98] : List Byte), x ≠ []) ∧
    (insertAll table (List.replicate 4294967296 [98])).2 = .ok () ∧
    (List.replicate 4294967296 ([98] : List Byte)).count [98] = 4294967296 ∧
    1 ≤ 4294967296 ∧
    ∃ i, (lookup (insertAll table (List.replicate 4294967296 [98])).1 [98]).2 = .ok i ∧
      ((insertAll table (List.replicate 4294967296 [98])).1 i).val = 0 ∧
      ((insertAll table (List.replicate 4294967296 [98])).1 i).val ≠ 4294967296 := by
  have hk : ([98] : List Byte) ≠ [] := by decide
  have ha : Absent table [98] := fun i hi _ => hi rfl
  have hne : ∀ x ∈ List.replicate 4294967296 ([98] : List Byte), x ≠ [] := by
    intro x hx
    rw [List.eq_of_mem_replicate hx]
    exact hk
  have h1 : (insertToken table [98]).2 = .ok () := by decide
  have hok : (insertAll table (List.replicate 4294967296 [98])).2 = .ok () := by
    have e : (4294967296 : Nat) = 4294967295 + 1 := rfl
    rw [e, List.replicate_succ, insertAll_cons_ok table [98] _ h1]
    refine insertAll_replicate_ok [98] hk _ _
      (insertToken_reachable table [98] hk Relation.ReflTransGen.refl) ⟨105819, ?_, ?_⟩
    · decide
    · decide
  have hcnt : (List.replicate 4294967296 ([98] : List Byte)).count [98] = 4294967296 :=
    List.count_replicate_self _ _
  obtain ⟨hr1, hc⟩ := counted_insertAll [98] hk _ table 0 hne Relation.ReflTransGen.refl
    (Or.inl ⟨rfl, ha⟩) hok
  rw [Nat.zero_add, hcnt] at hc
  refine ⟨Relation.ReflTransGen.refl, hk, ha, hne, hok, hcnt, by decide, ?_⟩
  rcases hc with ⟨h0, _⟩ | ⟨_, i, hi, hih, hiv⟩
  · exact absurd h0 (by decide)
  · have hv : ((insertAll table (List.replicate 4294967296 [98])).1 i).val = 0 :=
      hiv.trans (by norm_num)
    exact ⟨i, lookup_present _ [98] i hr1 hi hih, hv, by rw [hv]; decide⟩

/-! ## Claiming a bucket -/

/-- C10: in a reachable table, when `lookup` of a non-empty key that is not yet
stored succeeds, the returned bucket was empty before the call, and after the
call it holds exactly the bytes of the key, its length, and count `0`. -/
theorem lookup_claims_empty (t : Table) (key : List Byte) (p : Nat) (hr : Reachable t)
    (hne : key ≠ []) (ha : Absent t key) (h : (lookup t key).2 = .ok p) :
    (t p).len = 0 ∧ ((lookup t key).1 p).len = key.length ∧
    ((lookup t key).1 p).key.take key.length = key ∧ ((lookup t key).1 p).val = 0 := by
  rcases lookup_ok_cases t key p h with h0 | ⟨h0, hm⟩
  · obtain ⟨_, hh⟩ := lookup_holds t key p hne h
    refine ⟨h0, hh.1, hh.2, ?_⟩
    rw [lookup_ok_fst t key p h, if_pos h0, setBucket_same, claim_val]
    exact (inv_reachable hr).1 p h0
  · exact absurd hm (ha p h0)

/-- C10, at a concrete input: the key `q` in the table that holds `the` once. -/
theorem lookup_claims_empty_witness :
    Reachable (insertToken table [116, 104, 101]).1 ∧ ([113] : List Byte) ≠ [] ∧
    Absent (insertToken table [116, 104, 101]).1 [113] ∧
    (lookup (insertToken table [116, 104, 101]).1 [113]).2 = .ok 412327 ∧
    (((insertToken table [116, 104, 101]).1 412327).len = 0 ∧
      ((lookup (insertToken table [116, 104, 101]).1 [113]).1 412327).len =
        ([113] : List Byte).length ∧
      ((lookup (insertToken table [116, 104, 101]).1 [113]).1 412327).key.take
        ([113] : List Byte).length = [113] ∧
      ((lookup (insertToken table [116, 104, 101]).1 [113]).1 412327).val = 0) :=
  have hr : Reachable (insertToken table [116, 104, 101]).1 :=
    insertToken_reachable table [116, 104, 101] (by decide) Relation.ReflTransGen.refl
  have ha : Absent (insertToken table [116, 104, 101]).1 [113] := by
    intro i hi hh
    by_cases hip : i = 583978
    · subst hip
      exact absurd hh (by decide)
    · have hl : (lookup table [116, 104, 101]).2 = .ok 583978 := by decide
      rw [insertToken_ok table [116, 104, 101] 583978 hl, increment_len,
        lookup_other table [116, 104, 101] 583978 i hl hip] at hi
      exact hi rfl
  ⟨hr, by decide, ha, by decide,
    lookup_claims_empty _ [113] 412327 hr (by decide) ha (by decide)⟩

/-! ## Failures of `lookup` -/

/-- The loop of `lookup` runs out of attempts exactly when every bucket it examines
is occupied and fails the test of line 114. -/
theorem lookupLoop_enomem_iff (t : Table) (key : List Byte) (len index : Nat) :
    ∀ n iter, (lookupLoop t key len index n iter (examined index iter)).2 = .error .enomem ↔
      ∀ a, iter ≤ a → a < iter + n →
        (t (examined index a)).len ≠ 0 ∧
        ¬ ((t (examined index a)).len = len ∧ memcmp (t (examined index a)).key key len = 0)
  | 0, iter => by
    constructor
    · intro _ a h1 h2
      omega
    · intro _
      rfl
  | n + 1, iter => by
    by_cases h0 : (t (examined index iter)).len = 0
    · rw [lookupLoop_empty _ _ _ _ _ _ _ h0]
      constructor
      · intro h
        cases h
      · intro h
        exact absurd h0 (h iter (le_refl _) (by omega)).1
    · by_cases hm : (t (examined index iter)).len = len ∧
          memcmp (t (examined index iter)).key key len = 0
      · rw [lookupLoop_match _ _ _ _ _ _ _ h0 hm]
        constructor
        · intro h
          cases h
        · intro h
          exact absurd hm (h iter (le_refl _) (by omega)).2
      · rw [lookupLoop_next _ _ _ _ _ _ _ h0 hm]
        have ih := lookupLoop_enomem_iff t key len index n (iter + 1)
        have e : examined index (iter + 1) = nextIndex index iter := rfl
        rw [e] at ih
        rw [ih]
        constructor
        · intro h a h1 h2
          by_cases ha : a = iter
          · subst ha
            exact ⟨h0, hm⟩
          · exact h a (by omega) (by omega)
        · intro h a h1 h2
          exact h a (by omega) (by omega)

/-- C9: for a non-empty key that fits the key array, `lookup` returns the null
pointer (`ENOMEM`) if and only if each of the buckets examined in its 64
attempts is occupied by a key different from the searched key; it fails in no
other way, and when it fails the table is unchanged. -/
theorem lookup_exhausted_iff (t : Table) (key : List Byte) (hne : key ≠ [])
    (hk : key.length ≤ KEY_SIZE) :
    ((lookup t key).2 = .error .enomem ↔
      ∀ a, a < 64 → (t (examined (hash key % CAPACITY) a)).len ≠ 0 ∧
        ¬ Holds (t (examined (hash key % CAPACITY) a)) key) ∧
    (∀ f, (lookup t key).2 = .error f → f = .enomem ∧ (lookup t key).1 = t) := by
  have _ := hne
  constructor
  · rw [lookup_le t key hk]
    have h := lookupLoop_enomem_iff t key key.length (hash key % CAPACITY) 64 0
    have e : examined (hash key % CAPACITY) 0 = hash key % CAPACITY := rfl
    rw [e] at h
    rw [h]
    constructor
    · intro h1 a ha
      have h2 := h1 a (Nat.zero_le a) (by omega)
      exact ⟨h2.1, fun hh => h2.2 ((match_iff_holds _ _).2 hh)⟩
    · intro h1 a _ ha
      have h2 := h1 a (by omega)
      exact ⟨h2.1, fun hh => h2.2 ((match_iff_holds _ _).1 hh)⟩
  · intro f hf
    refine ⟨?_, lookup_error t key f hf⟩
    rw [lookup_le t key hk] at hf
    exact lookupLoop_error t key _ _ f 64 0 _ hf

/-- C9, at a concrete input: the key `q` in a table of which every bucket is
occupied by the one-byte key `0`; the lookup runs out of attempts. -/
theorem lookup_exhausted_iff_witness :
    ([113] : List Byte) ≠ [] ∧ ([113] : List Byte).length ≤ KEY_SIZE ∧
    (lookup (fun _ => ⟨1, 1, List.replicate KEY_SIZE 0⟩) [113]).2 = .error .enomem ∧
    (((lookup (fun _ => ⟨1, 1, List.replicate KEY_SIZE 0⟩) [113]).2 = .error .enomem ↔
      ∀ a, a < 64 →
        ((fun _ => ⟨1, 1, List.replicate KEY_SIZE 0⟩ : Table)
          (examined (hash [113] % CAPACITY) a)).len ≠ 0 ∧
        ¬ Holds ((fun _ => ⟨1, 1, List.replicate KEY_SIZE 0⟩ : Table)
          (examined (hash [113] % CAPACITY) a)) [113]) ∧
    (∀ f, (lookup (fun _ => ⟨1, 1, List.replicate KEY_SIZE 0⟩) [113]).2 = .error f →
      f = .enomem ∧
      (lookup (fun _ => ⟨1, 1, List.replicate KEY_SIZE 0⟩) [113]).1 =
        fun _ => ⟨1, 1, List.replicate KEY_SIZE 0⟩)) :=
  ⟨by decide, by decide, by decide,
    lookup_exhausted_iff (fun _ => ⟨1, 1, List.replicate KEY_SIZE 0⟩) [113]
      (by decide) (by decide)⟩

/-! ## Tokens and keys that are too long -/

theorem lowerAll_length : ∀ (tok lcs : List Byte), lowerAll tok = .ok lcs →
    lcs.length = tok.length
  | [], lcs, h => by
    cases h
    rfl
  | c :: rest, lcs, h => by
    unfold lowerAll at h
    cases hc : lower c with
    | error f => rw [hc] at h; cases h
    | ok l =>
      rw [hc] at h
      cases hr : lowerAll rest with
      | error f => rw [hr] at h; cases h
      | ok ls =>
        rw [hr] at h
        cases h
        simp [lowerAll_length rest ls hr]

/-- The guard of `parseToken` fires. -/
theorem parseToken_guard (unlikely : Nat → Nat) (t : Table) (tok : List Byte)
    (hg : unlikely tok.length > KEY_SIZE) :
    parseToken unlikely t tok = (t, .error .tokenTooLong) := by
  unfold parseToken
  rw [if_pos hg]

/-- The guard of `parseToken` does not fire and the token does not fit the stack. -/
theorem parseToken_stack (unlikely : Nat → Nat) (t : Table) (tok : List Byte)
    (hg : ¬ unlikely tok.length > KEY_SIZE) (hs : tok.length > STACK_SIZE) :
    parseToken unlikely t tok = (t, .error .stackOverflow) := by
  unfold parseToken
  rw [if_neg hg, if_pos hs]

/-- The guard of `parseToken` does not fire and the token fits the stack. -/
theorem parseToken_body (unlikely : Nat → Nat) (t : Table) (tok : List Byte)
    (hg : ¬ unlikely tok.length > KEY_SIZE) (hs : ¬ tok.length > STACK_SIZE) :
    parseToken unlikely t tok =
      match lowerAll tok with
      | .error f => (t, .error f)
      | .ok lcs => insertToken t lcs := by
  unfold parseToken
  rw [if_neg hg, if_neg hs]

/-- Whatever the macro `unlikely` yields, a token longer than the key array makes
`parseToken` end the run and leaves the table unchanged: by the guard when it
fires, else by the overflow of the stack, by the assertion of `lower` or by the
assertion of `lookup`. -/
theorem parseToken_long (unlikely : Nat → Nat) (t : Table) (tok : List Byte)
    (h : KEY_SIZE < tok.length) :
    parseToken unlikely t tok =
      (t, .error (if unlikely tok.length > KEY_SIZE then .tokenTooLong
        else if tok.length > STACK_SIZE then .stackOverflow
        else match lowerAll tok with
          | .error f => f
          | .ok _ => .assertLen)) := by
  by_cases hg : unlikely tok.length > KEY_SIZE
  · rw [parseToken_guard unlikely t tok hg, if_pos hg]
  · by_cases hs : tok.length > STACK_SIZE
    · rw [parseToken_stack unlikely t tok hg hs, if_neg hg, if_pos hs]
    · rw [parseToken_body unlikely t tok hg hs, if_neg hg, if_neg hs]
      cases hl : lowerAll tok with
      | error f => rfl
      | ok lcs =>
        have hlen := lowerAll_length tok lcs hl
        have hgt : ¬ lcs.length ≤ KEY_SIZE := by omega
        have h1 : (lookup t lcs).2 = .error .assertLen := by rw [lookup_gt t lcs hgt]
        simp only [insertToken_error t lcs _ h1]

/-- C7, as stated, fails for a key of 123 bytes: its length is between 1 and 125,
`lookup` fails the assertion on the key length, and `parseToken` with a macro
`unlikely` that yields the value of its argument ends the run at its guard. -/
theorem lookup_rejects_123 :
    1 ≤ (List.replicate 123 (98 : Byte)).length ∧
    (List.replicate 123 (98 : Byte)).length ≤ 125 ∧
    (lookup table (List.replicate 123 98)).2 = .error .assertLen ∧
    parseToken id table (List.replicate 123 98) = (table, .error .tokenTooLong) := by
  have hk : KEY_SIZE < (List.replicate 123 (98 : Byte)).length := by
    rw [List.length_replicate]
    decide
  refine ⟨by simp, by simp, ?_, ?_⟩
  · rw [lookup_gt table _ (Nat.not_le.2 hk)]
  · rw [parseToken_long id table _ hk]
    exact congrArg (fun f => (table, Except.error f)) (if_pos hk)

/-- C7 (amended): the maximum key length is 122 bytes, the size of the key array.
For every key of length 1 to 122, `lookup` does not fail the assertion on the key
length, and when it claims an empty bucket the bucket afterwards stores all the
bytes of the key with its length; every longer key fails the assertion. -/
theorem key_length_bound (t : Table) (key : List Byte) (h1 : 1 ≤ key.length)
    (h2 : key.length ≤ 122) :
    KEY_SIZE = 122 ∧ (lookup t key).2 ≠ .error .assertLen ∧
    (∀ p, (lookup t key).2 = .ok p → (t p).len = 0 →
      ((lookup t key).1 p).len = key.length ∧
      ((lookup t key).1 p).key.take key.length = key) ∧
    ∀ long : List Byte, 122 < long.length → lookup t long = (t, .error .assertLen) := by
  have hne : key ≠ [] := by
    intro e
    rw [e] at h1
    exact absurd h1 (by decide)
  refine ⟨rfl, ?_, fun p hp _ => (lookup_holds t key p hne hp).2,
    fun long hl => lookup_gt t long (Nat.not_le.2 hl)⟩
  intro h
  rw [lookup_le t key h2] at h
  exact absurd (lookupLoop_error t key _ _ _ 64 0 _ h) (by decide)

/-- C7 (amended), at a concrete input: a key of 122 bytes in the all-empty table. -/
theorem key_length_bound_witness :
    1 ≤ (List.replicate 122 (98 : Byte)).length ∧
    (List.replicate 122 (98 : Byte)).length ≤ 122 ∧
    (KEY_SIZE = 122 ∧ (lookup table (List.replicate 122 98)).2 ≠ .error .assertLen ∧
      (∀ p, (lookup table (List.replicate 122 98)).2 = .ok p → (table p).len = 0 →
        ((lookup table (List.replicate 122 98)).1 p).len =
          (List.replicate 122 (98 : Byte)).length ∧
        ((lookup table (List.replicate 122 98)).1 p).key.take
          (List.replicate 122 (98 : Byte)).length = List.replicate 122 98) ∧
      ∀ long : List Byte, 122 < long.length →
        lookup table long = (table, .error .assertLen)) :=
  ⟨by simp, by simp, key_length_bound table (List.replicate 122 98) (by simp) (by simp)⟩

/-! ## The ten most common tokens -/

theorem slots_nil : ∀ k, slots k [] = List.replicate k none
  | 0 => rfl
  | k + 1 => by rw [slots, slots_nil k, List.replicate_succ]

theorem slots_ne_nil (k : Nat) (l : List Nat) : slots (k + 1) l ≠ [] := by
  cases l <;> simp [slots]

theorem slots_dropLast : ∀ k l, (slots (k + 1) l).dropLast = slots k l
  | 0, l => by cases l <;> simp [slots]
  | k + 1, [] => by
    have h := slots_dropLast k []
    rw [slots, List.dropLast_cons_of_ne_nil (slots_ne_nil k []), h]
    rfl
  | k + 1, b :: rest => by
    have h := slots_dropLast k rest
    rw [slots, List.dropLast_cons_of_ne_nil (slots_ne_nil k rest), h]
    rfl

theorem filterMap_slots : ∀ k l, (slots k l).filterMap id = l.take k
  | 0, l => by simp [slots]
  | k + 1, [] => by
    have h := filterMap_slots k []
    simp only [slots, List.filterMap_cons, id, h]
    simp
  | k + 1, b :: rest => by
    have h := filterMap_slots k rest
    simp only [slots, List.filterMap_cons, id, h, List.take_succ_cons]

/-- The loop over `jter` on the slots that hold a ranking is the insertion into
the ranking. -/
theorem topInsert_slots (t : Table) (x : Nat) :
    ∀ k l, topInsert t x (slots k l) = slots k (rankInsert t x l)
  | 0, l => by cases l <;> simp [slots, topInsert]
  | k + 1, [] => by
    simp only [slots, topInsert, rankInsert]
  | k + 1, b :: rest => by
    by_cases h : (t x).val > (t b).val
    · simp only [slots, topInsert, rankInsert, if_pos h]
      have hd := slots_dropLast k (b :: rest)
      cases k with
      | zero => simp [slots]
      | succ k =>
        rw [slots] at hd
        rw [List.dropLast_cons_of_ne_nil (by simp), hd, slots]
    · simp only [slots, topInsert, rankInsert, if_neg h]
      rw [topInsert_slots t x k rest]

theorem topScan_slots (t : Table) :
    ∀ (is l : List Nat), is.foldl (topStep t) (slots 10 l) = slots 10 (ranked t l is)
  | [], l => rfl
  | i :: is, l => by
    rw [List.foldl_cons]
    unfold ranked
    rw [List.foldl_cons]
    by_cases h : (t i).len ≠ 0
    · rw [topStep, if_pos h, if_pos h, topInsert_slots]
      exact topScan_slots t is _
    · rw [topStep, if_neg h, if_neg h]
      exact topScan_slots t is _

/-- The buckets printed by `top` are the first ten of the ranking built by the
scan. -/
theorem top_eq_take (t : Table) : top t = (ranked t [] (List.range CAPACITY)).take 10 := by
  unfold top topScan
  rw [← slots_nil 10, topScan_slots, filterMap_slots]

theorem rankInsert_perm (t : Table) (x : Nat) : ∀ l, (rankInsert t x l).Perm (x :: l)
  | [] => List.Perm.refl _
  | b :: rest => by
    unfold rankInsert
    split_ifs
    · exact List.Perm.refl _
    · exact ((rankInsert_perm t x rest).cons b).trans (List.Perm.swap x b rest)

theorem rankInsert_sorted (t : Table) (x : Nat) :
    ∀ l, l.Pairwise (RanksBefore t) → (∀ a ∈ l, a < x) →
      (rankInsert t x l).Pairwise (RanksBefore t)
  | [], _, _ => List.pairwise_singleton _ _
  | b :: rest, hs, hlt => by
    have hb : ∀ c ∈ rest, RanksBefore t b c := fun c hc => List.rel_of_pairwise_cons hs hc
    unfold rankInsert
    split_ifs with h
    · refine List.Pairwise.cons (fun c hc => ?_) hs
      rcases List.mem_cons.1 hc with e | hc
      · rw [e]
        exact Or.inl h
      · rcases hb c hc with h1 | h1
        · exact Or.inl (lt_trans h1 h)
        · exact Or.inl (h1.1 ▸ h)
    · refine List.Pairwise.cons (fun c hc => ?_)
        (rankInsert_sorted t x rest (List.Pairwise.of_cons hs)
          (fun a ha => hlt a (List.mem_cons_of_mem b ha)))
      rcases List.mem_cons.1 ((rankInsert_perm t x rest).mem_iff.1 hc) with e | hc
      · rw [e]
        have hbx := hlt b (List.mem_cons_self b rest)
        unfold RanksBefore
        omega
      · exact hb c hc

/-- The ranking built by a scan in increasing index order is sorted by rank and
holds the occupied buckets scanned. -/
theorem ranked_spec (t : Table) :
    ∀ (is l : List Nat), is.Pairwise (· < ·) → (∀ a ∈ l, ∀ i ∈ is, a < i) →
      l.Pairwise (RanksBefore t) →
      (ranked t l is).Pairwise (RanksBefore t) ∧
      (ranked t l is).Perm (l ++ is.filter (fun i => decide ((t i).len ≠ 0)))
  | [], l, _, _, hs => by simp [ranked, hs]
  | i :: is, l, hlt, hli, hs => by
    have hi : ∀ j ∈ is, i < j := fun j hj => List.rel_of_pairwise_cons hlt hj
    have hl : ∀ a ∈ l, a < i := fun a ha => hli a ha i (List.mem_cons_self i is)
    unfold ranked
    rw [List.foldl_cons]
    by_cases h : (t i).len ≠ 0
    · rw [if_pos h]
      have hp := rankInsert_perm t i l
      have ih := ranked_spec t is (rankInsert t i l) (List.Pairwise.of_cons hlt)
        (fun a ha j hj => by
          rcases List.mem_cons.1 (hp.mem_iff.1 ha) with e | ha
          · rw [e]; exact hi j hj
          · exact hli a ha j (List.mem_cons_of_mem i hj))
        (rankInsert_sorted t i l hs hl)
      refine ⟨ih.1, ih.2.trans ?_⟩
      rw [List.filter_cons_of_pos (by simpa using h)]
      exact (hp.append_right _).trans List.perm_middle.symm
    · rw [if_neg h]
      have ih := ranked_spec t is l (List.Pairwise.of_cons hlt)
        (fun a ha j hj => hli a ha j (List.mem_cons_of_mem i hj)) hs
      refine ⟨ih.1, ?_⟩
      rw [List.filter_cons_of_neg (by simpa using h)]
      exact ih.2

theorem occupied_sorted (t : Table) (n : Nat) : (occupied t n).Pairwise (· < ·) :=
  List.Pairwise.sublist (List.filter_sublist _) (List.pairwise_lt_range n)

theorem mem_occupied (t : Table) (n i : Nat) :
    i ∈ occupied t n ↔ i < n ∧ (t i).len ≠ 0 := by
  simp [occupied]

/-- The ranking built by the scan of the first `n` buckets. -/
theorem ranked_range (t : Table) (n : Nat) :
    (ranked t [] (List.range n)).Pairwise (RanksBefore t) ∧
    (ranked t [] (List.range n)).Perm (occupied t n) := by
  have h := ranked_spec t (List.range n) [] (List.pairwise_lt_range n)
    (fun a ha => absurd ha (List.not_mem_nil a)) List.Pairwise.nil
  exact ⟨h.1, by simpa [occupied] using h.2⟩

/-- In a list without duplicates two entries occur in one order only. -/
theorem pair_sublist_unique {a b : Nat} :
    ∀ {l : List Nat}, l.Nodup → List.Sublist [a, b] l → List.Sublist [b, a] l → False
  | [], _, h1, _ => by cases h1
  | c :: l, hl, h1, h2 => by
    have hc : c ∉ l := (List.nodup_cons.1 hl).1
    have hl1 : l.Nodup := (List.nodup_cons.1 hl).2
    cases h1 with
    | cons _ h1 =>
      cases h2 with
      | cons _ h2 => exact pair_sublist_unique hl1 h1 h2
      | cons₂ _ h2 =>
        exact hc (h1.subset (by simp))
    | cons₂ _ h1 =>
      cases h2 with
      | cons _ h2 =>
        exact hc (h2.subset (by simp))
      | cons₂ _ h2 =>
        exact hc (h2.subset (by simp))

/-- In a list in increasing order two entries occur in increasing order. -/
theorem pair_sublist_of_lt {a b : Nat} (hba : b < a) :
    ∀ {l : List Nat}, l.Pairwise (· < ·) → a ∈ l → b ∈ l → List.Sublist [b, a] l
  | [], _, ha, _ => absurd ha (List.not_mem_nil a)
  | c :: l, hl, ha, hb => by
    have hc : ∀ x ∈ l, c < x := fun x hx => List.rel_of_pairwise_cons hl hx
    rcases List.mem_cons.1 hb with e | hb1
    · rcases List.mem_cons.1 ha with e1 | ha1
      · omega
      · rw [e]
        exact List.Sublist.cons₂ c (List.singleton_sublist.2 ha1)
    · rcases List.mem_cons.1 ha with e1 | ha1
      · have := hc b hb1
        omega
      · exact List.Sublist.cons c (pair_sublist_of_lt hba (List.Pairwise.of_cons hl) ha1 hb1)

theorem countLe_trans (t : Table) (a b c : Nat)
    (h1 : decide ((t b).val ≤ (t a).val) = true) (h2 : decide ((t c).val ≤ (t b).val) = true) :
    decide ((t c).val ≤ (t a).val) = true := by
  simp only [decide_eq_true_eq] at *
  omega

theorem countLe_total (t : Table) (a b : Nat) :
    (decide ((t b).val ≤ (t a).val) || decide ((t a).val ≤ (t b).val)) = true := by
  simp only [Bool.or_eq_true, decide_eq_true_eq]
  omega

/-- The stable sort by count descending of the occupied buckets, which are in
index order, is sorted by rank. -/
theorem mergeSort_ranked (t : Table) (n : Nat) :
    ((occupied t n).mergeSort (fun a b => decide ((t b).val ≤ (t a).val))).Pairwise
      (RanksBefore t) := by
  have hperm := List.mergeSort_perm (occupied t n) (fun a b => decide ((t b).val ≤ (t a).val))
  have hnd : ((occupied t n).mergeSort (fun a b => decide ((t b).val ≤ (t a).val))).Nodup :=
    hperm.nodup_iff.2 ((occupied_sorted t n).imp (fun h => Nat.ne_of_lt h))
  have hsorted := List.sorted_mergeSort (countLe_trans t) (countLe_total t) (occupied t n)
  rw [List.pairwise_iff_forall_sublist]
  intro a b hab
  have hle : (t b).val ≤ (t a).val := by
    simpa using List.pairwise_iff_forall_sublist.1 hsorted hab
  have hne : a ≠ b := by
    have := hnd.sublist hab
    simpa using this
  by_cases hlt : (t b).val < (t a).val
  · exact Or.inl hlt
  · right
    have heq : (t a).val = (t b).val := by omega
    refine ⟨heq, ?_⟩
    by_contra hba
    have hba1 : b < a := by omega
    have ha : a ∈ occupied t n := hperm.mem_iff.1 (hab.subset (List.mem_cons_self a _))
    have hb : b ∈ occupied t n :=
      hperm.mem_iff.1 (hab.subset (List.mem_cons_of_mem a (List.mem_singleton_self b)))
    have hsub : List.Sublist [b, a] (occupied t n) :=
      pair_sublist_of_lt hba1 (occupied_sorted t n) ha hb
    have hsub2 := List.pair_sublist_mergeSort (countLe_trans t) (countLe_total t)
      (by simp [heq] : decide ((t a).val ≤ (t b).val) = true) hsub
    exact pair_sublist_unique hnd hab hsub2

/-- The ranking built by the scan is the stable sort by count descending of the
occupied buckets in index order. -/
theorem ranked_eq_mergeSort (t : Table) (n : Nat) :
    ranked t [] (List.range n) =
      (occupied t n).mergeSort (fun a b => decide ((t b).val ≤ (t a).val)) :=
  List.eq_of_perm_of_sorted
    ((ranked_range t n).2.trans (List.mergeSort_perm (occupied t n) _).symm)
    (ranked_range t n).1 (mergeSort_ranked t n)

/-- C5: the buckets that `top` prints, in order, are the first ten of the occupied
buckets taken in table-index order and stably sorted by count descending. Hence
each printed bucket ranks before the ones printed after it and before every
occupied bucket that is not printed, where a bucket ranks before another one
when it has a higher count, or the same count and a lower table index. -/
theorem top_eq_topSpec (t : Table) :
    top t = topSpec t ∧
    (top t).Pairwise (RanksBefore t) ∧
    ∀ i, i < CAPACITY → (t i).len ≠ 0 → i ∉ top t → ∀ j ∈ top t, RanksBefore t j i := by
  have hr := ranked_range t CAPACITY
  refine ⟨?_, ?_, ?_⟩
  · rw [top_eq_take, topSpec, ranked_eq_mergeSort]
  · rw [top_eq_take]
    exact List.Pairwise.sublist (List.take_sublist _ _) hr.1
  · intro i hi hio hnot j hj
    rw [top_eq_take] at hnot hj
    have hmem : i ∈ ranked t [] (List.range CAPACITY) :=
      hr.2.mem_iff.2 ((mem_occupied t CAPACITY i).2 ⟨hi, hio⟩)
    have hsplit := List.take_append_drop 10 (ranked t [] (List.range CAPACITY))
    rw [← hsplit] at hmem
    rcases List.mem_append.1 hmem with h | h
    · exact absurd h hnot
    · have hp := hr.1
      rw [← hsplit] at hp
      exact (List.pairwise_append.1 hp).2.2 j hj i h

/-- C6: `top` prints at most ten buckets, exactly `min 10 n` of them when `n`
buckets of the table are occupied; each is an occupied bucket of the table, no
bucket is printed twice, and the sequence of the printed counts is
non-increasing. -/
theorem top_bounded (t : Table) :
    (top t).length ≤ 10 ∧
    (top t).length = min 10 (occupied t CAPACITY).length ∧
    (∀ i ∈ top t, i < CAPACITY ∧ (t i).len ≠ 0) ∧
    (top t).Nodup ∧
    ((top t).map (fun i => (t i).val)).Pairwise (· ≥ ·) := by
  have hr := ranked_range t CAPACITY
  have hlen : (top t).length = min 10 (occupied t CAPACITY).length := by
    rw [top_eq_take, List.length_take, hr.2.length_eq]
  have hnd : (ranked t [] (List.range CAPACITY)).Nodup :=
    hr.2.nodup_iff.2 ((occupied_sorted t CAPACITY).imp (fun h => Nat.ne_of_lt h))
  refine ⟨?_, hlen, ?_, ?_, ?_⟩
  · rw [hlen]
    exact Nat.min_le_left _ _
  · intro i hi
    rw [top_eq_take] at hi
    exact (mem_occupied t CAPACITY i).1 (hr.2.mem_iff.1 (List.mem_of_mem_take hi))
  · rw [top_eq_take]
    exact hnd.sublist (List.take_sublist _ _)
  · rw [List.pairwise_map]
    rw [top_eq_take]
    refine (List.Pairwise.sublist (List.take_sublist _ _) hr.1).imp ?_
    intro a b h
    unfold RanksBefore at h
    show (t a).val ≥ (t b).val
    omega

/-! ## Lower-casing -/

theorem lower_of_assertion (chr : Byte) (h : LowerAssertion chr) :
    lower chr = .ok (toLower chr) := by
  unfold LowerAssertion at h
  unfold lower toLower
  rw [if_pos h]
  split_ifs <;> rfl

theorem lowerAll_of_assertion : ∀ tok : List Byte, (∀ c ∈ tok, LowerAssertion c) →
    lowerAll tok = .ok (tok.map toLower)
  | [], _ => rfl
  | c :: rest, h => by
    rw [lowerAll, lower_of_assertion c (h c (List.mem_cons_self c rest)),
      lowerAll_of_assertion rest (fun d hd => h d (List.mem_cons_of_mem c hd))]
    rfl

set_option maxRecDepth 100000 in
/-- The letters for which the assertion of `lower` fails are `A`, `Z`, `a` and `z`. -/
theorem assertion_fails_iff :
    ∀ c : Byte, isLetter c = true →
      (¬ LowerAssertion c ↔ c = 65 ∨ c = 90 ∨ c = 97 ∨ c = 122) := by
  decide

/-- On letters other than `A`, `Z`, `a` and `z` the function `lower` maps an
upper-case letter to the lower-case letter and leaves a lower-case letter. Two
tokens of such letters that agree up to the case of their letters are handled by
`parseToken` in the same way. -/
theorem parseToken_case (unlikely : Nat → Nat) (t : Table) (tok1 tok2 : List Byte)
    (h1 : ∀ c ∈ tok1, LowerAssertion c) (h2 : ∀ c ∈ tok2, LowerAssertion c)
    (h : tok1.map toLower = tok2.map toLower) :
    parseToken unlikely t tok1 = parseToken unlikely t tok2 := by
  have hl : tok1.length = tok2.length := by
    have := congrArg List.length h
    simpa using this
  unfold parseToken
  rw [lowerAll_of_assertion tok1 h1, lowerAll_of_assertion tok2 h2, h, hl]

/-- C17, evaluated at the letters `A`, `Z`, `a` and `z`: the tokenizer takes each
of them as a letter, the assertion at the start of `lower` fails for each, and
the input text `a` ends the run in `lower`. -/
theorem lower_fails_on_boundary_letters :
    isLetter 65 = true ∧ isLetter 90 = true ∧ isLetter 97 = true ∧ isLetter 122 = true ∧
    lower 65 = .error .assertLower ∧ lower 90 = .error .assertLower ∧
    lower 97 = .error .assertLower ∧ lower 122 = .error .assertLower ∧
    tokens [97] = [[97]] ∧
    mainTable id [97] = (table, .error .assertLower) := by
  refine ⟨by decide, by decide, by decide, by decide, by decide, by decide, by decide,
    by decide, by decide, ?_⟩
  rfl

/-- C11, evaluated at the tokens `Zoo` and `zoo`, which differ in the case of
their letters only: `parseToken` ends the run at the assertion of `lower` for
both, whatever the table, and no bucket is looked up. -/
theorem parseToken_fails_on_zoo :
    parseToken id table [90, 111, 111] = (table, .error .assertLower) ∧
    parseToken id table [122, 111, 111] = (table, .error .assertLower) ∧
    (∀ (unlikely : Nat → Nat) (t : Table),
      (parseToken unlikely t [90, 111, 111]).2 ≠ .ok () ∧
      (parseToken unlikely t [122, 111, 111]).2 ≠ .ok ()) := by
  have hZ : lowerAll [90, 111, 111] = .error .assertLower := by decide
  have hz : lowerAll [122, 111, 111] = .error .assertLower := by decide
  refine ⟨rfl, rfl, fun unlikely t => ⟨?_, ?_⟩⟩
  · unfold parseToken
    rw [hZ]
    split_ifs <;> simp
  · unfold parseToken
    rw [hz]
    split_ifs <;> simp

/-! ## The run of `main` -/

/-- For a token that fits the key array the guard of `parseToken` does not fire,
when the macro `unlikely` yields at most the value of its argument. -/
theorem parseToken_eq_id (unlikely : Nat → Nat) (hU : ∀ n, unlikely n ≤ n) (t : Table)
    (tok : List Byte) (hl : tok.length ≤ KEY_SIZE) :
    parseToken unlikely t tok = parseToken id t tok := by
  have h1 : ¬ unlikely tok.length > KEY_SIZE := Nat.not_lt.2 (le_trans (hU _) hl)
  have h2 : ¬ id tok.length > KEY_SIZE := Nat.not_lt.2 hl
  unfold parseToken
  rw [if_neg h1, if_neg h2]

theorem parseAll_eq_id (unlikely : Nat → Nat) (hU : ∀ n, unlikely n ≤ n) :
    ∀ (toks : List (List Byte)) (t : Table), (∀ tok ∈ toks, tok.length ≤ KEY_SIZE) →
      parseAll unlikely t toks = parseAll id t toks
  | [], _, _ => rfl
  | tok :: rest, t, h => by
    unfold parseAll
    rw [parseToken_eq_id unlikely hU t tok (h tok (List.mem_cons_self tok rest))]
    cases hp : parseToken id t tok with
    | mk t1 r =>
      cases r with
      | error f => rfl
      | ok u =>
        exact parseAll_eq_id unlikely hU rest t1 (fun x hx => h x (List.mem_cons_of_mem tok hx))

/-- A bucket that is occupied after `parseToken` was occupied before, or it is the
bucket that `lookup` returned for the lower-cased token. -/
theorem parseToken_occupied (unlikely : Nat → Nat) (t : Table) (tok : List Byte) (i : Nat)
    (h : ((parseToken unlikely t tok).1 i).len ≠ 0) :
    (t i).len ≠ 0 ∨ ∃ lcs, lowerAll tok = .ok lcs ∧ (lookup t lcs).2 = .ok i := by
  by_cases hg : unlikely tok.length > KEY_SIZE
  · rw [parseToken_guard unlikely t tok hg] at h
    exact Or.inl h
  · by_cases hs : tok.length > STACK_SIZE
    · rw [parseToken_stack unlikely t tok hg hs] at h
      exact Or.inl h
    · rw [parseToken_body unlikely t tok hg hs] at h
      cases hl : lowerAll tok with
      | error f =>
        rw [hl] at h
        exact Or.inl h
      | ok lcs =>
        rw [hl] at h
        simp only at h
        cases hr : (lookup t lcs).2 with
        | error f =>
          rw [insertToken_error t lcs f hr] at h
          exact Or.inl h
        | ok p =>
          rw [insertToken_ok t lcs p hr, increment_len] at h
          by_cases hip : i = p
          · right
            exact ⟨lcs, rfl, by rw [hip]; exact hr⟩
          · rw [lookup_other t lcs p i hr hip] at h
            exact Or.inl h

/-- The scan of `top` skips the empty buckets. -/
theorem ranked_filter (t : Table) : ∀ (is l : List Nat),
    ranked t l is = ranked t l (is.filter (fun i => decide ((t i).len ≠ 0)))
  | [], _ => rfl
  | i :: is, l => by
    by_cases h : (t i).len ≠ 0
    · rw [List.filter_cons_of_pos (by simpa using h)]
      unfold ranked
      rw [List.foldl_cons, List.foldl_cons, if_pos h]
      exact ranked_filter t is _
    · rw [List.filter_cons_of_neg (by simpa using h)]
      unfold ranked
      rw [List.foldl_cons, if_neg h]
      exact ranked_filter t is _

/-- The occupied buckets among the first `n`, from a list of them in index order. -/
theorem occupied_eq (t : Table) (n : Nat) (l : List Nat) (hs : l.Pairwise (· < ·))
    (h : ∀ i, (i < n ∧ (t i).len ≠ 0) ↔ i ∈ l) : occupied t n = l := by
  refine List.eq_of_perm_of_sorted ?_ (occupied_sorted t n) hs
  refine (List.perm_ext_iff_of_nodup ?_ ?_).2 ?_
  · exact (occupied_sorted t n).imp (fun h => Nat.ne_of_lt h)
  · exact hs.imp (fun h => Nat.ne_of_lt h)
  · intro i
    rw [mem_occupied]
    exact h i

/-- The buckets that `top` prints, from the list of the occupied buckets. -/
theorem top_of_occupied (t : Table) (l : List Nat) (h : occupied t CAPACITY = l) :
    top t = (ranked t [] l).take 10 := by
  rw [top_eq_take, ranked_filter, ← h]
  rfl

theorem parseAll_cons_ok (unlikely : Nat → Nat) (t : Table) (tok : List Byte)
    (rest : List (List Byte)) (h : (parseToken unlikely t tok).2 = .ok ()) :
    parseAll unlikely t (tok :: rest) = parseAll unlikely (parseToken unlikely t tok).1 rest := by
  conv_lhs => unfold parseAll
  cases hl : parseToken unlikely t tok with
  | mk t1 r =>
    rw [hl] at h
    cases h
    rfl

theorem parseAll_cons_error (unlikely : Nat → Nat) (t : Table) (tok : List Byte)
    (rest : List (List Byte)) (f : Failure) (h : (parseToken unlikely t tok).2 = .error f) :
    (parseAll unlikely t (tok :: rest)).2 = .error f := by
  unfold parseAll
  cases hl : parseToken unlikely t tok with
  | mk t1 r =>
    rw [hl] at h
    cases h
    rfl

theorem parseAll_single (unlikely : Nat → Nat) (t : Table) (tok : List Byte) :
    parseAll unlikely t [tok] = parseToken unlikely t tok := by
  unfold parseAll
  cases hl : parseToken unlikely t tok with
  | mk t1 r =>
    cases r with
    | error f => rfl
    | ok u =>
      cases u
      rfl

/-- After a failure no further token is parsed. -/
theorem parseAll_append_error (unlikely : Nat → Nat) (f : Failure) :
    ∀ (l r : List (List Byte)) (t : Table), (parseAll unlikely t l).2 = .error f →
      parseAll unlikely t (l ++ r) = parseAll unlikely t l
  | [], _, _, h => by cases h
  | tok :: rest, r, t, h => by
    cases hs : (parseToken unlikely t tok).2 with
    | error g =>
      rw [List.cons_append]
      unfold parseAll
      cases hl : parseToken unlikely t tok with
      | mk t1 q =>
        rw [hl] at hs
        cases hs
        rfl
    | ok u =>
      cases u
      rw [parseAll_cons_ok unlikely t tok rest hs] at h
      rw [List.cons_append, parseAll_cons_ok unlikely t tok (rest ++ r) hs,
        parseAll_cons_ok unlikely t tok rest hs]
      exact parseAll_append_error unlikely f rest r _ h

/-- The calls made by the tokenizer loop are the calls of its control flow up to
and including the first call of `parseToken` that does not return, all of them
when every call returns; the table and the outcome are those of the calls made,
of which only the last one can fail. -/
theorem tokenLoop_spec (unlikely : Nat → Nat) (base : List Byte) :
    ∀ (n head tail : Nat) (t : Table),
      ∃ rest, tokenSpans base n head tail =
          (tokenLoop unlikely base n head tail t).1 ++ rest ∧
        ((tokenLoop unlikely base n head tail t).2.2 = .ok () → rest = []) ∧
        (tokenLoop unlikely base n head tail t).2 =
          parseAll unlikely t ((tokenLoop unlikely base n head tail t).1.map (token base)) ∧
        (parseAll unlikely t
          ((tokenLoop unlikely base n head tail t).1.dropLast.map (token base))).2 = .ok ()
  | 0, head, tail, t => by
    unfold tokenLoop tokenSpans
    by_cases hgt : tail > head
    · rw [if_pos hgt, if_pos hgt]
      exact ⟨[], rfl, fun _ => rfl, (parseAll_single unlikely t _).symm, rfl⟩
    · rw [if_neg hgt, if_neg hgt]
      exact ⟨[], rfl, fun _ => rfl, rfl, rfl⟩
  | n + 1, head, tail, t => by
    unfold tokenLoop tokenSpans
    by_cases hc : isLetter (base.getD tail 0) = true
    · rw [if_pos hc, if_pos hc]
      exact tokenLoop_spec unlikely base n head (tail + 1) t
    · rw [if_neg hc, if_neg hc]
      by_cases hgt : tail > head
      · rw [if_pos hgt, if_pos hgt]
        cases hp : parseToken unlikely t (token base (head, tail)) with
        | mk t1 r =>
          cases r with
          | error f =>
            refine ⟨tokenSpans base n (tail + 1) (tail + 1), rfl, ?_, ?_, rfl⟩
            · intro h
              have h0 : (Except.error f : Except Failure Unit) = .ok () := h
              cases h0
            · show (t1, Except.error f) = parseAll unlikely t [token base (head, tail)]
              rw [parseAll_single, hp]
          | ok u =>
            cases u
            have hs : (parseToken unlikely t (token base (head, tail))).2 = .ok () := by
              rw [hp]
            have ht1 : (parseToken unlikely t (token base (head, tail))).1 = t1 := by
              rw [hp]
            obtain ⟨rest, h1, h2, h3, h4⟩ :=
              tokenLoop_spec unlikely base n (tail + 1) (tail + 1) t1
            refine ⟨rest, ?_, h2, ?_, ?_⟩
            · show [(head, tail)] ++ tokenSpans base n (tail + 1) (tail + 1) = _
              rw [h1]
              rfl
            · show (tokenLoop unlikely base n (tail + 1) (tail + 1) t1).2 = _
              rw [List.map_cons, parseAll_cons_ok unlikely t _ _ hs, ht1]
              exact h3
            · show (parseAll unlikely t (List.map (token base)
                ((head, tail) ::
                  (tokenLoop unlikely base n (tail + 1) (tail + 1) t1).1).dropLast)).2 = .ok ()
              cases hcalls : (tokenLoop unlikely base n (tail + 1) (tail + 1) t1).1 with
              | nil => rfl
              | cons c cs =>
                rw [List.dropLast_cons_of_ne_nil (List.cons_ne_nil c cs), List.map_cons,
                  parseAll_cons_ok unlikely t _ _ hs, ht1, ← hcalls]
                exact h4
      · rw [if_neg hgt, if_neg hgt]
        exact tokenLoop_spec unlikely base n (tail + 1) (tail + 1) t

/-- On a file that is not empty the run of `main` is the run of `parseToken` on the
tokens of the input, up to the first failure. -/
theorem mainTable_eq (unlikely : Nat → Nat) (base : List Byte) (h : base ≠ []) :
    mainTable unlikely base = parseAll unlikely table (tokens base) := by
  have hl : ¬ base.length = 0 := fun e => h (List.length_eq_zero.1 e)
  unfold mainTable mainRun tokens
  rw [if_neg hl]
  obtain ⟨rest, h1, h2, h3, _⟩ := tokenLoop_spec unlikely base base.length 0 0 table
  rw [h1, List.map_append, h3]
  cases hr : (parseAll unlikely table
      ((tokenLoop unlikely base base.length 0 0 table).1.map (token base))).2 with
  | error f => rw [parseAll_append_error unlikely f _ _ table hr]
  | ok u =>
    cases u
    rw [h3] at h2
    rw [h2 hr, List.map_nil, List.append_nil]

/-- A bucket that is occupied after `parseToken` was occupied before or is the
bucket `p` that `lookup` returns for the lower-cased token. -/
theorem parseToken_occupied_at (unlikely : Nat → Nat) (t : Table) (tok lcs : List Byte)
    (p i : Nat) (hl : lowerAll tok = .ok lcs) (hp : (lookup t lcs).2 = .ok p)
    (h : ((parseToken unlikely t tok).1 i).len ≠ 0) : (t i).len ≠ 0 ∨ i = p := by
  rcases parseToken_occupied unlikely t tok i h with h | ⟨lcs1, hl1, hr⟩
  · exact Or.inl h
  · rw [hl] at hl1
    cases hl1
    rw [hp] at hr
    cases hr
    exact Or.inr rfl

theorem exampleText_tokens :
    tokens exampleText =
      [[84, 104, 101], [113, 117, 105, 99, 107], [98, 114, 111, 119, 110], [102, 111, 120],
        [116, 104, 101], [81, 117, 105, 99, 107]] := by
  decide

/-- The occupied buckets after the run on the example text, with the identity as
the macro `unlikely`. -/
theorem exampleText_occupied (i : Nat) :
    ((mainTable id exampleText).1 i).len ≠ 0 ↔
      i = 583978 ∨ i = 1756720 ∨ i = 431811 ∨ i = 1111445 := by
  constructor
  · intro h
    have e : (mainTable id exampleText).1 =
        (parseToken id (parseToken id (parseToken id (parseToken id (parseToken id
          (parseToken id table [84, 104, 101]).1 [113, 117, 105, 99, 107]).1
          [98, 114, 111, 119, 110]).1 [102, 111, 120]).1 [116, 104, 101]).1
          [81, 117, 105, 99, 107]).1 := by
      rw [mainTable_eq id exampleText (by decide), exampleText_tokens,
        parseAll_cons_ok _ _ _ _ (by decide),
        parseAll_cons_ok _ _ _ _ (by decide), parseAll_cons_ok _ _ _ _ (by decide),
        parseAll_cons_ok _ _ _ _ (by decide), parseAll_cons_ok _ _ _ _ (by decide),
        parseAll_cons_ok _ _ _ _ (by decide)]
      rfl
    rw [e] at h
    rcases parseToken_occupied_at id _ _ [113, 117, 105, 99, 107] 1756720 i
      (by decide) (by decide) h with h | h
    · rcases parseToken_occupied_at id _ _ [116, 104, 101] 583978 i
        (by decide) (by decide) h with h | h
      · rcases parseToken_occupied_at id _ _ [102, 111, 120] 1111445 i
          (by decide) (by decide) h with h | h
        · rcases parseToken_occupied_at id _ _ [98, 114, 111, 119, 110] 431811 i
            (by decide) (by decide) h with h | h
          · rcases parseToken_occupied_at id _ _ [113, 117, 105, 99, 107] 1756720 i
              (by decide) (by decide) h with h | h
            · rcases parseToken_occupied_at id _ _ [116, 104, 101] 583978 i
                (by decide) (by decide) h with h | h
              · exact absurd rfl h
              · exact Or.inl h
            · exact Or.inr (Or.inl h)
          · exact Or.inr (Or.inr (Or.inl h))
        · exact Or.inr (Or.inr (Or.inr h))
      · exact Or.inl h
    · exact Or.inr (Or.inl h)
  · rintro (h | h | h | h) <;> rw [h] <;> decide

theorem exampleText_occupied_list :
    occupied (mainTable id exampleText).1 CAPACITY = [431811, 583978, 1111445, 1756720] := by
  refine occupied_eq _ _ _ (by decide) (fun i => ?_)
  rw [exampleText_occupied i]
  constructor
  · rintro ⟨_, h | h | h | h⟩ <;> rw [h] <;> decide
  · intro h
    simp only [List.mem_cons, List.mem_singleton, List.not_mem_nil, or_false] at h
    rcases h with h | h | h | h <;> rw [h] <;> decide

/-- C12: the input text `The quick brown fox the Quick` is split into the tokens
`The`, `quick`, `brown`, `fox`, `the`, `Quick`; the run from the all-empty table
succeeds and leaves exactly four occupied buckets, which store `the` with count 2,
`quick` with count 2, `brown` with count 1 and `fox` with count 1; and `top` lists
them in the order `the`, `quick`, `brown`, `fox`. The macro `unlikely` is a
parameter that yields at most the value of its argument. -/
theorem example_run (unlikely : Nat → Nat) (hU : ∀ n, unlikely n ≤ n) :
    tokens exampleText =
      [[84, 104, 101], [113, 117, 105, 99, 107], [98, 114, 111, 119, 110], [102, 111, 120],
        [116, 104, 101], [81, 117, 105, 99, 107]] ∧
    (mainTable unlikely exampleText).2 = .ok () ∧
    (∀ i, ((mainTable unlikely exampleText).1 i).len ≠ 0 ↔
      i = 583978 ∨ i = 1756720 ∨ i = 431811 ∨ i = 1111445) ∧
    Holds ((mainTable unlikely exampleText).1 583978) [116, 104, 101] ∧
    ((mainTable unlikely exampleText).1 583978).val = 2 ∧
    Holds ((mainTable unlikely exampleText).1 1756720) [113, 117, 105, 99, 107] ∧
    ((mainTable unlikely exampleText).1 1756720).val = 2 ∧
    Holds ((mainTable unlikely exampleText).1 431811) [98, 114, 111, 119, 110] ∧
    ((mainTable unlikely exampleText).1 431811).val = 1 ∧
    Holds ((mainTable unlikely exampleText).1 1111445) [102, 111, 120] ∧
    ((mainTable unlikely exampleText).1 1111445).val = 1 ∧
    top (mainTable unlikely exampleText).1 = [583978, 1756720, 431811, 1111445] := by
  have hid : mainTable unlikely exampleText = mainTable id exampleText := by
    rw [mainTable_eq unlikely exampleText (by decide), mainTable_eq id exampleText (by decide),
      exampleText_tokens]
    exact parseAll_eq_id unlikely hU _ table (by decide)
  rw [hid]
  refine ⟨exampleText_tokens, by decide, exampleText_occupied, by decide, by decide,
    by decide, by decide, by decide, by decide, by decide, by decide, ?_⟩
  rw [top_of_occupied _ _ exampleText_occupied_list]
  decide

/-- C12, with the identity as the macro `unlikely`. -/
theorem example_run_witness :
    (∀ n : Nat, id n ≤ n) ∧
    (tokens exampleText =
        [[84, 104, 101], [113, 117, 105, 99, 107], [98, 114, 111, 119, 110], [102, 111, 120],
          [116, 104, 101], [81, 117, 105, 99, 107]] ∧
      (mainTable id exampleText).2 = .ok () ∧
      (∀ i, ((mainTable id exampleText).1 i).len ≠ 0 ↔
        i = 583978 ∨ i = 1756720 ∨ i = 431811 ∨ i = 1111445) ∧
      Holds ((mainTable id exampleText).1 583978) [116, 104, 101] ∧
      ((mainTable id exampleText).1 583978).val = 2 ∧
      Holds ((mainTable id exampleText).1 1756720) [113, 117, 105, 99, 107] ∧
      ((mainTable id exampleText).1 1756720).val = 2 ∧
      Holds ((mainTable id exampleText).1 431811) [98, 114, 111, 119, 110] ∧
      ((mainTable id exampleText).1 431811).val = 1 ∧
      Holds ((mainTable id exampleText).1 1111445) [102, 111, 120] ∧
      ((mainTable id exampleText).1 1111445).val = 1 ∧
      top (mainTable id exampleText).1 = [583978, 1756720, 431811, 1111445]) :=
  ⟨fun n => le_refl n, example_run id (fun n => le_refl n)⟩

/-! ## The probe sequence -/

/-- The index computed at the end of an iteration is the home index plus the
offset of that iteration, reduced to `size_t` and then modulo the capacity. -/
theorem nextIndex_eq (index iter : Nat) :
    nextIndex index iter =
      (((index : Int) + offset iter) % 18446744073709551616).toNat % CAPACITY := by
  have hM : (0 : Int) ≤ ((index : Int) + offset iter) % 18446744073709551616 :=
    Int.emod_nonneg _ (by norm_num)
  have hf : (0 : Int) ≤ flip iter % 18446744073709551616 := Int.emod_nonneg _ (by norm_num)
  unfold nextIndex u64 sizeOfInt
  congr 1
  apply Nat.cast_injective (R := Int)
  rw [Int.toNat_of_nonneg hM]
  push_cast
  rw [Int.toNat_of_nonneg hf]
  unfold offset
  exact Int.ModEq.add_left _ ((Int.mod_modEq _ _).trans
    (Int.ModEq.mul_right _ ((Int.mod_modEq _ _).trans
      (Int.ModEq.mul_right _ (Int.mod_modEq _ _)))))

theorem examined_eq (home : Nat) (h : home < CAPACITY) (i : Nat) :
    examined home i =
      (((home : Int) + attemptOffset i) % 18446744073709551616).toNat % CAPACITY := by
  cases i with
  | zero =>
    unfold CAPACITY at h
    simp only [examined, attemptOffset, add_zero]
    unfold CAPACITY
    omega
  | succ i => exact nextIndex_eq home i

theorem examined_one (home : Nat) (h : home < CAPACITY) : examined home 1 = home := by
  unfold CAPACITY at h
  simp only [examined, nextIndex, u64, CAPACITY]
  norm_num
  omega

theorem examined_two (home : Nat) (h : home < CAPACITY) : examined home 2 = home := by
  unfold CAPACITY at h
  simp only [examined, nextIndex, u64, CAPACITY]
  norm_num
  omega

/-- C13, evaluated at the home index 0, which is the home index of the key
`kmgp`: attempt 2 examines bucket 0, where the specified sequence has bucket 1,
and attempt 4 examines bucket 2097150, which is neither the specified bucket 4
nor the non-negative remainder 2097152 of the offset `-1`. In a table of which
the buckets 0 and 1 hold another key, `lookup` returns bucket 2097150 for `kmgp`. -/
theorem probe_differs_from_spec :
    hash [107, 109, 103, 112] % CAPACITY = 0 ∧
    examined 0 2 = 0 ∧ probeSpec 0 2 = 1 ∧
    examined 0 4 = 2097150 ∧ probeSpec 0 4 = 4 ∧ probeSpec 0 3 = 2097152 ∧
    (lookup (fun i => if i = 0 ∨ i = 1 then ⟨1, 1, List.replicate KEY_SIZE 0⟩ else zeroBucket)
      [107, 109, 103, 112]).2 = .ok 2097150 := by
  refine ⟨by decide, by decide, by decide, by decide, by decide, by decide, by decide⟩

/-- The loop of `lookup` enters attempt `a` with the bucket `examined index a` when
the buckets of the attempts before it are occupied and fail the test of line 114. -/
theorem lookupLoop_skip (t : Table) (key : List Byte) (len index : Nat) :
    ∀ n iter a, iter ≤ a → a ≤ iter + n →
      (∀ b, iter ≤ b → b < a → (t (examined index b)).len ≠ 0 ∧
        ¬ ((t (examined index b)).len = len ∧ memcmp (t (examined index b)).key key len = 0)) →
      lookupLoop t key len index n iter (examined index iter) =
        lookupLoop t key len index (iter + n - a) a (examined index a)
  | 0, iter, a => by
    intro h1 h2 _
    have e : a = iter := by omega
    subst e
    rw [Nat.add_zero, Nat.sub_self]
  | n + 1, iter, a => by
    intro h1 h2 h
    by_cases e : a = iter
    · subst e
      rw [Nat.add_sub_cancel_left]
    · have hi := h iter (le_refl _) (by omega)
      rw [lookupLoop_next _ _ _ _ _ _ _ hi.1 hi.2]
      have ih := lookupLoop_skip t key len index n (iter + 1) a (by omega) (by omega)
        (fun b hb1 hb2 => h b (by omega) hb2)
      have e1 : examined index (iter + 1) = nextIndex index iter := rfl
      have e2 : iter + 1 + n - a = iter + (n + 1) - a := by omega
      rw [e1, e2] at ih
      exact ih

/-- The result of the loop of `lookup` depends on the buckets of its attempts only. -/
theorem lookupLoop_frame (t t1 : Table) (key : List Byte) (len index : Nat) :
    ∀ n iter,
      (∀ a, iter ≤ a → a < iter + n → t1 (examined index a) = t (examined index a)) →
      (lookupLoop t1 key len index n iter (examined index iter)).2 =
        (lookupLoop t key len index n iter (examined index iter)).2
  | 0, _ => fun _ => rfl
  | n + 1, iter => by
    intro h
    have hc := h iter (le_refl _) (by omega)
    by_cases h0 : (t (examined index iter)).len = 0
    · rw [lookupLoop_empty t _ _ _ _ _ _ h0,
        lookupLoop_empty t1 _ _ _ _ _ _ (by rw [hc]; exact h0)]
    · by_cases hm : (t (examined index iter)).len = len ∧
          memcmp (t (examined index iter)).key key len = 0
      · rw [lookupLoop_match t _ _ _ _ _ _ h0 hm,
          lookupLoop_match t1 _ _ _ _ _ _ (by rw [hc]; exact h0) (by rw [hc]; exact hm)]
      · rw [lookupLoop_next t _ _ _ _ _ _ h0 hm,
          lookupLoop_next t1 _ _ _ _ _ _ (by rw [hc]; exact h0) (by rw [hc]; exact hm)]
        exact lookupLoop_frame t t1 key len index n (iter + 1)
          (fun a h1 h2 => h a (by omega) (by omega))

/-- C18: in one call of `lookup` with a key that fits the key array, attempt `a`
(of the attempts 0 to 63) examines the bucket `examined home a` of the home index
`home` of the key: when the buckets of the attempts before it are occupied by
other keys, the call claims and returns this bucket if it is empty and returns it
if it stores the key; when the buckets of all 64 attempts are occupied by other
keys the call fails; and the result of the call depends on no bucket other than
these. The attempts 0, 1 and 2 all examine the home bucket; attempt `i + 1` uses
the offset `sign(i) * floor(i/2)^2` of the counter `i`, so that the offsets of the
64 attempts are `0, 0, 0, +1, -1, +4, -4, ..., +900, -900, +961` and `-961` is not
among them; and the 64 attempts examine at most 62 distinct buckets. The bucket
of an attempt is the home index plus the offset, reduced to `size_t` and then
modulo the capacity. -/
theorem probe_sequence (t : Table) (key : List Byte) (home : Nat)
    (hk : key.length ≤ KEY_SIZE) (hh : hash key % CAPACITY = home) :
    (∀ a, a < 64 →
      (∀ b, b < a → (t (examined home b)).len ≠ 0 ∧ ¬ Holds (t (examined home b)) key) →
      ((t (examined home a)).len = 0 →
        lookup t key =
          (setBucket t (examined home a) (claim (t (examined home a)) key key.length),
            .ok (examined home a))) ∧
      ((t (examined home a)).len ≠ 0 → Holds (t (examined home a)) key →
        lookup t key = (t, .ok (examined home a)))) ∧
    ((∀ b, b < 64 → (t (examined home b)).len ≠ 0 ∧ ¬ Holds (t (examined home b)) key) →
      lookup t key = (t, .error .enomem)) ∧
    (∀ t1 : Table, (∀ a, a < 64 → t1 (examined home a) = t (examined home a)) →
      (lookup t1 key).2 = (lookup t key).2) ∧
    examined home 0 = home ∧ examined home 1 = home ∧ examined home 2 = home ∧
    (∀ i, examined home i =
      (((home : Int) + attemptOffset i) % 18446744073709551616).toNat % CAPACITY) ∧
    (∀ i, attemptOffset (i + 1) = (if i % 2 = 0 then 1 else -1) * ((i / 2 : Nat) : Int) ^ 2) ∧
    (List.range 64).map attemptOffset =
      [0, 0, 0, 1, -1, 4, -4, 9, -9, 16, -16, 25, -25, 36, -36, 49, -49, 64, -64, 81, -81,
        100, -100, 121, -121, 144, -144, 169, -169, 196, -196, 225, -225, 256, -256, 289,
        -289, 324, -324, 361, -361, 400, -400, 441, -441, 484, -484, 529, -529, 576, -576,
        625, -625, 676, -676, 729, -729, 784, -784, 841, -841, 900, -900, 961] ∧
    (-961 : Int) ∉ (List.range 64).map attemptOffset ∧
    ((List.range 64).map (examined home)).toFinset.card ≤ 62 := by
  have h : home < CAPACITY := by
    rw [← hh]
    exact Nat.mod_lt _ (by decide)
  have h1 := examined_one home h
  have h2 := examined_two home h
  have e0 : examined home 0 = home := rfl
  have hl : ∀ t0 : Table, lookup t0 key =
      lookupLoop t0 key key.length home 64 0 (examined home 0) := by
    intro t0
    rw [lookup_le t0 key hk, hh, e0]
  have hb : ∀ b, (t (examined home b)).len ≠ 0 ∧ ¬ Holds (t (examined home b)) key →
      (t (examined home b)).len ≠ 0 ∧ ¬ ((t (examined home b)).len = key.length ∧
        memcmp (t (examined home b)).key key key.length = 0) :=
    fun b hb => ⟨hb.1, fun hm => hb.2 ((match_iff_holds _ _).1 hm)⟩
  refine ⟨?_, ?_, ?_, rfl, h1, h2, examined_eq home h, ?_, by decide, by decide, ?_⟩
  · intro a ha hbefore
    have hs := lookupLoop_skip t key key.length home 64 0 a (Nat.zero_le a) (by omega)
      (fun b _ hb2 => hb b (hbefore b hb2))
    have en : 0 + 64 - a = (63 - a) + 1 := by omega
    rw [en] at hs
    constructor
    · intro h0
      rw [hl t, hs, lookupLoop_empty _ _ _ _ _ _ _ h0]
    · intro h0 hm
      rw [hl t, hs, lookupLoop_match _ _ _ _ _ _ _ h0 ((match_iff_holds _ _).2 hm)]
  · intro hall
    have he : (lookup t key).2 = .error .enomem := by
      rw [hl t]
      exact (lookupLoop_enomem_iff t key key.length home 64 0).2
        (fun a _ ha => hb a (hall a (by omega)))
    exact Prod.ext (lookup_error t key _ he) he
  · intro t1 hagree
    rw [hl t, hl t1]
    exact lookupLoop_frame t t1 key key.length home 64 0 (fun a _ ha => hagree a (by omega))
  · intro i
    simp only [attemptOffset, offset, flip]
    split_ifs <;> simp_all <;> ring
  · have e : List.range 64 = 0 :: 1 :: 2 :: List.range' 3 61 := by decide
    rw [e]
    simp only [List.map_cons, List.toFinset_cons, h1, h2]
    rw [e0, Finset.insert_idem, Finset.insert_idem]
    refine le_trans (Finset.card_insert_le _ _) ?_
    have := List.toFinset_card_le ((List.range' 3 61).map (examined home))
    simp only [List.length_map, List.length_range'] at this
    omega

/-- C18, for the key `the` in the all-empty table; the home index of the key is
583978. -/
theorem probe_sequence_witness :
    ([116, 104, 101] : List Byte).length ≤ KEY_SIZE ∧
    hash [116, 104, 101] % CAPACITY = 583978 ∧
    ((∀ a, a < 64 →
      (∀ b, b < a → (table (examined 583978 b)).len ≠ 0 ∧
        ¬ Holds (table (examined 583978 b)) [116, 104, 101]) →
      ((table (examined 583978 a)).len = 0 →
        lookup table [116, 104, 101] =
          (setBucket table (examined 583978 a)
              (claim (table (examined 583978 a)) [116, 104, 101]
                ([116, 104, 101] : List Byte).length),
            .ok (examined 583978 a))) ∧
      ((table (examined 583978 a)).len ≠ 0 →
        Holds (table (examined 583978 a)) [116, 104, 101] →
        lookup table [116, 104, 101] = (table, .ok (examined 583978 a)))) ∧
    ((∀ b, b < 64 → (table (examined 583978 b)).len ≠ 0 ∧
        ¬ Holds (table (examined 583978 b)) [116, 104, 101]) →
      lookup table [116, 104, 101] = (table, .error .enomem)) ∧
    (∀ t1 : Table, (∀ a, a < 64 → t1 (examined 583978 a) = table (examined 583978 a)) →
      (lookup t1 [116, 104, 101]).2 = (lookup table [116, 104, 101]).2) ∧
    examined 583978 0 = 583978 ∧ examined 583978 1 = 583978 ∧ examined 583978 2 = 583978 ∧
    (∀ i, examined 583978 i =
      ((((583978 : Nat) : Int) + attemptOffset i) % 18446744073709551616).toNat % CAPACITY) ∧
    (∀ i, attemptOffset (i + 1) = (if i % 2 = 0 then 1 else -1) * ((i / 2 : Nat) : Int) ^ 2) ∧
    (List.range 64).map attemptOffset =
      [0, 0, 0, 1, -1, 4, -4, 9, -9, 16, -16, 25, -25, 36, -36, 49, -49, 64, -64, 81, -81,
        100, -100, 121, -121, 144, -144, 169, -169, 196, -196, 225, -225, 256, -256, 289,
        -289, 324, -324, 361, -361, 400, -400, 441, -441, 484, -484, 529, -529, 576, -576,
        625, -625, 676, -676, 729, -729, 784, -784, 841, -841, 900, -900, 961] ∧
    (-961 : Int) ∉ (List.range 64).map attemptOffset ∧
    ((List.range 64).map (examined 583978)).toFinset.card ≤ 62) :=
  ⟨by decide, by decide, probe_sequence table [116, 104, 101] 583978 (by decide) (by decide)⟩

/-! ## The scan of `top` with empty slots -/

/-- The array `topList` after the scan of the first `n` buckets, from the list of
the occupied buckets among them. -/
theorem topScan_of_occupied (t : Table) (n : Nat) (l : List Nat) (h : occupied t n = l) :
    topScan t n = slots 10 (ranked t [] l) := by
  unfold topScan
  rw [← slots_nil 10, topScan_slots, ranked_filter, ← h]
  rfl

/-- C14, as stated, fails in the run on the text `The quick brown fox the Quick`:
when the scan of `top` reaches the bucket of `the` (count 2), the list holds the
bucket of `brown` (count 1) in slot 0 and nine empty slots; the bucket of `the`
is placed into slot 0, not into the first empty slot, and the bucket of `brown`
is moved to slot 1. -/
theorem top_moves_entry_with_empty_slots :
    topScan (mainTable id exampleText).1 583978 = some 431811 :: List.replicate 9 none ∧
    ((mainTable id exampleText).1 583978).len ≠ 0 ∧
    topStep (mainTable id exampleText).1 (topScan (mainTable id exampleText).1 583978) 583978 =
      some 583978 :: some 431811 :: List.replicate 8 none ∧
    topStep (mainTable id exampleText).1 (topScan (mainTable id exampleText).1 583978) 583978 ≠
      some 431811 :: some 583978 :: List.replicate 8 none := by
  have hocc : occupied (mainTable id exampleText).1 583978 = [431811] := by
    refine occupied_eq _ _ _ (by decide) (fun i => ?_)
    rw [exampleText_occupied i]
    constructor
    · rintro ⟨hi, h | h | h | h⟩
      · omega
      · omega
      · rw [h]; decide
      · omega
    · intro h
      simp only [List.mem_singleton] at h
      rw [h]
      decide
  have hscan : topScan (mainTable id exampleText).1 583978 =
      some 431811 :: List.replicate 9 none := by
    rw [topScan_of_occupied _ _ _ hocc]
    decide
  rw [hscan]
  refine ⟨rfl, by decide, by decide, by decide⟩

theorem topInsert_some (t : Table) (x b : Nat) (rest : List (Option Nat)) :
    topInsert t x (some b :: rest) =
      if (t x).val > (t b).val then (some x :: some b :: rest).dropLast
      else some b :: topInsert t x rest := by
  rw [topInsert]

/-- C14 (amended): when the result list of `top` still has an empty slot, the
occupied bucket being scanned is placed before the first entry whose count is
strictly smaller, the entries from that one on move down one slot and none is
dropped; when no entry has a strictly smaller count, it is placed into the first
empty slot and no entry is moved. -/
theorem topInsert_with_empty_slot (t : Table) (x : Nat) (l : List Nat) (m : Nat) :
    ∃ l1 l2, l = l1 ++ l2 ∧
      topInsert t x (l.map some ++ List.replicate (m + 1) none) =
        (l1 ++ x :: l2).map some ++ List.replicate m none ∧
      (∀ b ∈ l1, (t x).val ≤ (t b).val) ∧
      (∀ b, l2.head? = some b → (t b).val < (t x).val) := by
  induction l with
  | nil =>
    refine ⟨[], [], rfl, ?_, fun b hb => absurd hb (List.not_mem_nil b), fun b hb => ?_⟩
    · simp [List.replicate_succ, topInsert]
    · simp at hb
  | cons b rest ih =>
    by_cases h : (t x).val > (t b).val
    · refine ⟨[], b :: rest, rfl, ?_, fun c hc => absurd hc (List.not_mem_nil c), fun c hc => ?_⟩
      · rw [List.map_cons, List.cons_append, topInsert_some, if_pos h, List.nil_append,
          List.replicate_succ', ← List.append_assoc, ← List.cons_append, ← List.cons_append,
          List.dropLast_concat]
        rfl
      · simp only [List.head?_cons, Option.some.injEq] at hc
        rw [← hc]
        exact h
    · obtain ⟨l1, l2, e, hi, h1, h2⟩ := ih
      refine ⟨b :: l1, l2, by rw [e]; rfl, ?_, fun c hc => ?_, h2⟩
      · rw [List.map_cons, List.cons_append, topInsert_some, if_neg h, hi]
        rfl
      · rcases List.mem_cons.1 hc with e1 | hc
        · rw [e1]
          omega
        · exact h1 c hc

/-! ## The hash function -/

theorem charU32_of_lt (c : Byte) (h : c.val < 128) : charU32 c = c.val := by
  unfold charU32
  rw [if_pos h]

theorem extract_cons (b0 b1 : Byte) (rest : List Byte) (h0 : b0.val < 128)
    (h1 : b1.val < 128) : extract (b0 :: b1 :: rest) = b0.val + 256 * b1.val := by
  unfold extract u32
  simp only [List.getD_cons_zero, List.getD_cons_succ, charU32_of_lt b0 h0,
    charU32_of_lt b1 h1, Nat.shiftLeft_eq]
  omega

theorem hashFinal_eq (h : Nat) : hashFinal h = refAvalanche h := rfl

theorem and_three (n : Nat) : n &&& 3 = n % 4 := by
  have h := Nat.and_pow_two_sub_one_eq_mod n 2
  norm_num at h
  exact h

theorem shiftRight_two (n : Nat) : n >>> 2 = n / 4 := by
  rw [Nat.shiftRight_eq_div_pow]

/-- The loop over the groups and the `switch` on the remaining bytes compute the
mixing of the reference definition, on 7-bit bytes. -/
theorem hashRem_hashLoop : ∀ (data : List Byte) (h : Nat), (∀ c ∈ data, c.val < 128) →
    hashRem (data.length &&& 3) (hashLoop (data.length >>> 2) data h).2
      (hashLoop (data.length >>> 2) data h).1 = refMix h data
  | [], h, _ => rfl
  | [b0], h, h7 => by
    have h0 := h7 b0 (by simp)
    rw [and_three, shiftRight_two]
    simp only [List.length_singleton, Nat.reduceDiv, Nat.reduceMod, hashLoop, hashRem, refMix,
      u32]
    simp [charU32_of_lt b0 h0]
  | [b0, b1], h, h7 => by
    have h0 := h7 b0 (by simp)
    have h1 := h7 b1 (by simp)
    rw [and_three, shiftRight_two]
    simp only [List.length_cons, List.length_nil, Nat.reduceAdd, Nat.reduceDiv, Nat.reduceMod,
      hashLoop, hashRem, refMix, u32, extract_cons b0 b1 [] h0 h1]
    simp
  | [b0, b1, b2], h, h7 => by
    have h0 := h7 b0 (by simp)
    have h1 := h7 b1 (by simp)
    have h2 := h7 b2 (by simp)
    rw [and_three, shiftRight_two]
    simp only [List.length_cons, List.length_nil, Nat.reduceAdd, Nat.reduceDiv, Nat.reduceMod,
      hashLoop, hashRem, refMix, u32, extract_cons b0 b1 [b2] h0 h1]
    simp [charU32_of_lt b2 h2]
  | b0 :: b1 :: b2 :: b3 :: rest, h, h7 => by
    have h0 := h7 b0 (by simp)
    have h1 := h7 b1 (by simp)
    have h2 := h7 b2 (by simp)
    have h3 := h7 b3 (by simp)
    have e1 : (b0 :: b1 :: b2 :: b3 :: rest).length >>> 2 = rest.length >>> 2 + 1 := by
      rw [shiftRight_two, shiftRight_two]
      simp only [List.length_cons]
      omega
    have e2 : (b0 :: b1 :: b2 :: b3 :: rest).length &&& 3 = rest.length &&& 3 := by
      rw [and_three, and_three]
      simp only [List.length_cons]
      omega
    rw [e1, e2]
    simp only [hashLoop, List.drop_succ_cons, List.drop_zero]
    rw [hashRem_hashLoop rest _ (fun c hc => h7 c (by simp [hc])), refMix]
    simp only [u32, extract_cons b0 b1 _ h0 h1, extract_cons b2 b3 _ h2 h3]
    rfl

/-- C15: for every byte sequence of 7-bit bytes, `hash` equals the reference
definition of the specification (the accumulator starts as the length; the groups
of four bytes; the three cases of the remaining bytes; the six-step avalanche; all
arithmetic modulo `2^32`), and the hash of the empty sequence is 0. -/
theorem hash_eq_hashRef (b : List Byte) (h7 : ∀ c ∈ b, c.val < 128) :
    hash b = hashRef b ∧ hash [] = 0 := by
  refine ⟨?_, by decide⟩
  unfold hash hashRef
  simp only
  rw [hashRem_hashLoop b _ h7, hashFinal_eq]
  rfl

/-- C15, at the bytes of `quick`. -/
theorem hash_eq_hashRef_witness :
    (∀ c ∈ ([113, 117, 105, 99, 107] : List Byte), c.val < 128) ∧
    (hash [113, 117, 105, 99, 107] = hashRef [113, 117, 105, 99, 107] ∧ hash [] = 0) :=
  ⟨by simp; decide, hash_eq_hashRef [113, 117, 105, 99, 107] (by simp; decide)⟩

/-! ## The tokenizer -/

/-- The invariant of the tokenizer loop gives the spans of the calls made from the
state `(head, tail)` on: each is a maximal run that starts at `head` or later,
they are in input order and separated, and they cover every letter from `head`
on. -/
theorem tokenSpans_spec (base : List Byte) :
    ∀ (n head tail : Nat), tail + n = base.length → head ≤ tail →
      (∀ i, head ≤ i → i < tail → isLetter (base.getD i 0) = true) →
      (head = 0 ∨ isLetter (base.getD (head - 1) 0) = false) →
      (∀ s ∈ tokenSpans base n head tail, head ≤ s.1 ∧ MaximalRun base s) ∧
      (tokenSpans base n head tail).Pairwise (fun a b => a.2 < b.1) ∧
      (∀ i, head ≤ i → i < base.length → isLetter (base.getD i 0) = true →
        ∃ s ∈ tokenSpans base n head tail, s.1 ≤ i ∧ i < s.2)
  | 0, head, tail, hn, hht, hlet, hleft => by
    have htl : tail = base.length := by omega
    unfold tokenSpans
    by_cases hgt : tail > head
    · rw [if_pos hgt]
      refine ⟨fun s hs => ?_, List.pairwise_singleton _ _, fun i h1 h2 _ => ?_⟩
      · rw [List.mem_singleton] at hs
        rw [hs]
        exact ⟨le_refl _, hgt, by omega, hlet, hleft, Or.inl htl⟩
      · exact ⟨(head, tail), List.mem_singleton_self _, h1, by omega⟩
    · rw [if_neg hgt]
      refine ⟨fun s hs => absurd hs (List.not_mem_nil s), List.Pairwise.nil,
        fun i h1 h2 _ => ?_⟩
      omega
  | n + 1, head, tail, hn, hht, hlet, hleft => by
    unfold tokenSpans
    by_cases hc : isLetter (base.getD tail 0) = true
    · rw [if_pos hc]
      refine tokenSpans_spec base n head (tail + 1) (by omega) (by omega) (fun i h1 h2 => ?_)
        hleft
      by_cases hi : i = tail
      · rw [hi]
        exact hc
      · exact hlet i h1 (by omega)
    · rw [if_neg hc]
      have hcf : isLetter (base.getD tail 0) = false := by simpa using hc
      obtain ⟨hA, hB, hC⟩ := tokenSpans_spec base n (tail + 1) (tail + 1) (by omega)
        (le_refl _) (fun i h1 h2 => by omega) (Or.inr (by simpa using hcf))
      have hfirst : ∀ s ∈ (if tail > head then [(head, tail)] else []),
          s = (head, tail) ∧ tail > head := by
        intro s hs
        by_cases hgt : tail > head
        · rw [if_pos hgt, List.mem_singleton] at hs
          exact ⟨hs, hgt⟩
        · rw [if_neg hgt] at hs
          exact absurd hs (List.not_mem_nil s)
      refine ⟨fun s hs => ?_, ?_, fun i h1 h2 h3 => ?_⟩
      · rcases List.mem_append.1 hs with hs | hs
        · obtain ⟨e, hgt⟩ := hfirst s hs
          rw [e]
          exact ⟨le_refl _, hgt, by omega, hlet, hleft, Or.inr hcf⟩
        · exact ⟨by have := (hA s hs).1; omega, (hA s hs).2⟩
      · refine List.pairwise_append.2 ⟨?_, hB, fun a ha b hb => ?_⟩
        · by_cases hgt : tail > head
          · rw [if_pos hgt]
            exact List.pairwise_singleton _ _
          · rw [if_neg hgt]
            exact List.Pairwise.nil
        · rw [(hfirst a ha).1]
          have := (hA b hb).1
          show tail < b.1
          omega
      · by_cases hi : i < tail
        · refine ⟨(head, tail), List.mem_append_left _ ?_, h1, hi⟩
          rw [if_pos (by omega)]
          exact List.mem_singleton_self _
        · by_cases hit : i = tail
          · rw [hit, hcf] at h3
            cases h3
          · obtain ⟨s, hs, hs1, hs2⟩ := hC i (by omega) h2 h3
            exact ⟨s, List.mem_append_right _ hs, hs1, hs2⟩

/-- The bytes of a token are the bytes of the input at the positions of its span. -/
theorem mem_token (base : List Byte) (s : Nat × Nat) (hs : s.2 ≤ base.length) (c : Byte)
    (hc : c ∈ token base s) : ∃ i, s.1 ≤ i ∧ i < s.2 ∧ c = base.getD i 0 := by
  unfold token at hc
  obtain ⟨j, hj, e⟩ := List.mem_iff_getElem.1 hc
  have hj1 : j < s.2 - s.1 := by
    have := hj
    simp only [List.length_take, List.length_drop] at this
    omega
  refine ⟨s.1 + j, by omega, by omega, ?_⟩
  rw [← e]
  simp only [List.getElem_take, List.getElem_drop]
  rw [List.getD_eq_getElem _ _ (by omega)]

theorem token_length (base : List Byte) (s : Nat × Nat) (hs : s.2 ≤ base.length) :
    (token base s).length = s.2 - s.1 := by
  unfold token
  simp only [List.length_take, List.length_drop]
  omega

set_option maxRecDepth 100000 in
/-- The bytes that the `switch` of `main` takes as letters are `A` to `Z` and `a`
to `z`. -/
theorem isLetter_iff : ∀ c : Byte, isLetter c = true ↔
    (65 ≤ c.val ∧ c.val ≤ 90) ∨ (97 ≤ c.val ∧ c.val ≤ 122) := by
  decide

/-- The run of `main` makes the calls of the control flow of its loop up to and
including the first call of `parseToken` that does not return, all of them when
every call returns; every call but the last returns, and on a file that is not
empty the table and the outcome of the run are those of the calls made. -/
theorem mainRun_spec (unlikely : Nat → Nat) (base : List Byte) :
    ∃ rest, tokenSpans base base.length 0 0 = (mainRun unlikely base).1 ++ rest ∧
      ((mainRun unlikely base).2.2 = .ok () → rest = []) ∧
      (base ≠ [] → (mainRun unlikely base).2 =
        parseAll unlikely table ((mainRun unlikely base).1.map (token base))) ∧
      (parseAll unlikely table
        ((mainRun unlikely base).1.dropLast.map (token base))).2 = .ok () := by
  by_cases hl : base.length = 0
  · have e : base = [] := List.length_eq_zero.1 hl
    subst e
    exact ⟨[], rfl, fun _ => rfl, fun h => absurd rfl h, rfl⟩
  · unfold mainRun
    rw [if_neg hl]
    obtain ⟨rest, h1, h2, h3, h4⟩ := tokenLoop_spec unlikely base base.length 0 0 table
    exact ⟨rest, h1, h2, fun _ => h3, h4⟩

set_option maxRecDepth 100000 in
/-- C16, as stated, fails on the input of 123 letters `b`, a space and a letter
`b`: the last byte is a maximal run of letters, but whatever the macro `unlikely`
yields, the first call `parseToken(base, 123)` does not return and is the only
call; the letter at offset 124 is in no token passed to `parseToken`. With a
macro that yields the value of its argument the run ends at the guard of
`parseToken`. -/
theorem tokenizer_stops_at_failure :
    MaximalRun longText (124, 125) ∧
    isLetter (longText.getD 124 0) = true ∧
    (∀ unlikely : Nat → Nat,
      (mainRun unlikely longText).1 = [(0, 123)] ∧
      (mainRun unlikely longText).2.2 ≠ .ok () ∧
      ¬ ∃ s ∈ (mainRun unlikely longText).1, s.1 ≤ 124 ∧ 124 < s.2) ∧
    (mainRun id longText).2.2 = .error .tokenTooLong := by
  have hspans : tokenSpans longText longText.length 0 0 = [(0, 123), (124, 125)] := by
    decide
  have htok : token longText (0, 123) = List.replicate 123 98 := by
    decide
  have hne : longText ≠ [] := by decide
  have hk : KEY_SIZE < (List.replicate 123 (98 : Byte)).length := by
    rw [List.length_replicate]
    decide
  have hfail : ∀ (unlikely : Nat → Nat) (rest : List (List Byte)),
      (parseAll unlikely table (List.replicate 123 98 :: rest)).2 ≠ .ok () := by
    intro unlikely rest
    rw [parseAll_cons_error unlikely table _ rest _
      (congrArg Prod.snd (parseToken_long unlikely table _ hk))]
    intro h
    cases h
  have hcalls : ∀ unlikely : Nat → Nat,
      (mainRun unlikely longText).1 = [(0, 123)] ∧
      (mainRun unlikely longText).2.2 ≠ .ok () := by
    intro unlikely
    obtain ⟨rest, h1, h2, h3, h4⟩ := mainRun_spec unlikely longText
    have h3 := h3 hne
    rw [hspans] at h1
    cases hc : (mainRun unlikely longText).1 with
    | nil =>
      rw [hc] at h1 h3
      rw [h3] at h2
      have hr := h2 rfl
      rw [hr] at h1
      cases h1
    | cons c cs =>
      rw [hc] at h1 h3 h4
      rw [List.cons_append] at h1
      have hc0 : c = (0, 123) := (List.cons.inj h1).1.symm
      subst hc0
      cases cs with
      | nil =>
        refine ⟨rfl, ?_⟩
        rw [h3, List.map_cons, htok]
        exact hfail unlikely _
      | cons d ds =>
        rw [List.dropLast_cons_of_ne_nil (List.cons_ne_nil d ds), List.map_cons, htok] at h4
        exact absurd h4 (hfail unlikely _)
  refine ⟨⟨by decide, by decide, fun i h1 h2 => ?_, Or.inr (by decide), Or.inl (by decide)⟩,
    by decide, fun unlikely => ?_, ?_⟩
  · have e : i = 124 := by
      have h1 : 124 ≤ i := h1
      have h2 : i < 125 := h2
      omega
    rw [e]
    decide
  · refine ⟨(hcalls unlikely).1, (hcalls unlikely).2, ?_⟩
    rw [(hcalls unlikely).1]
    decide
  · obtain ⟨rest, h1, h2, h3, h4⟩ := mainRun_spec id longText
    rw [h3 hne, (hcalls id).1, List.map_cons, htok, List.map_nil, parseAll_single,
      parseToken_long id table _ hk]
    exact congrArg Except.error (if_pos hk)

/-- C16 (amended): the calls `parseToken(base + head, tail - head)` made by the
tokenizer loop of `main` are, in input order, the maximal runs of ASCII letters of
the input up to and including the first one on which `parseToken` does not
return, and all of them when every call returns. Each span is a maximal run, the
spans are in increasing order and separated, every token is non-empty and
consists of letters only, and a letter lies in one span only; every letter of the
input lies in a span when the run succeeds, and every letter before the end of a
span lies in a span in any case. Every call but the last returns, the table and
the outcome of the run are those of the calls made, and on an empty file `mmap`
fails and no call is made. -/
theorem tokenizer_calls (unlikely : Nat → Nat) (base : List Byte) :
    (∀ c : Byte, isLetter c = true ↔
      (65 ≤ c.val ∧ c.val ≤ 90) ∨ (97 ≤ c.val ∧ c.val ≤ 122)) ∧
    (∀ s ∈ (mainRun unlikely base).1, MaximalRun base s) ∧
    (mainRun unlikely base).1.Pairwise (fun a b => a.2 < b.1) ∧
    (∀ i, i < base.length → isLetter (base.getD i 0) = true →
      ((mainRun unlikely base).2.2 = .ok () ∨ ∃ c ∈ (mainRun unlikely base).1, i < c.2) →
      ∃ s ∈ (mainRun unlikely base).1, s.1 ≤ i ∧ i < s.2) ∧
    (∀ s1 ∈ (mainRun unlikely base).1, ∀ s2 ∈ (mainRun unlikely base).1,
      ∀ i, s1.1 ≤ i → i < s1.2 → s2.1 ≤ i → i < s2.2 → s1 = s2) ∧
    (∀ s ∈ (mainRun unlikely base).1,
      token base s ≠ [] ∧ ∀ c ∈ token base s, isLetter c = true) ∧
    (parseAll unlikely table
      ((mainRun unlikely base).1.dropLast.map (token base))).2 = .ok () ∧
    (base ≠ [] → (mainRun unlikely base).2 =
      parseAll unlikely table ((mainRun unlikely base).1.map (token base))) ∧
    (base = [] → mainRun unlikely base = ([], (table, .error .mmap))) := by
  obtain ⟨hA, hB, hC⟩ := tokenSpans_spec base base.length 0 0 (by omega) (le_refl _)
    (fun i _ h2 => absurd h2 (Nat.not_lt_zero i)) (Or.inl rfl)
  obtain ⟨rest, h1, h2, h3, h4⟩ := mainRun_spec unlikely base
  rw [h1] at hA hB hC
  have hP := List.pairwise_append.1 hB
  refine ⟨isLetter_iff, fun s hs => (hA s (List.mem_append_left _ hs)).2, hP.1, ?_, ?_, ?_,
    h4, h3, ?_⟩
  · intro i hi hlet hcov
    obtain ⟨s, hs, hs1, hs2⟩ := hC i (Nat.zero_le i) hi hlet
    rcases List.mem_append.1 hs with hs | hs
    · exact ⟨s, hs, hs1, hs2⟩
    · rcases hcov with hok | ⟨c, hc, hic⟩
      · rw [h2 hok] at hs
        exact absurd hs (List.not_mem_nil s)
      · have := hP.2.2 c hc s hs
        omega
  · intro s1 hs1 s2 hs2 i a1 a2 b1 b2
    by_contra hne
    have hsym : (mainRun unlikely base).1.Pairwise
        (fun a b => a.2 < b.1 ∨ b.2 < a.1) := hP.1.imp (fun h => Or.inl h)
    have := hsym.forall (fun a b h => h.symm) hs1 hs2 hne
    omega
  · intro s hs
    obtain ⟨g1, g2, g3, _, _⟩ := (hA s (List.mem_append_left _ hs)).2
    constructor
    · intro hnil
      have := token_length base s g2
      rw [hnil] at this
      simp only [List.length_nil] at this
      omega
    · intro c hc
      obtain ⟨i, hi1, hi2, hci⟩ := mem_token base s g2 c hc
      rw [hci]
      exact g3 i hi1 hi2
  · intro e
    subst e
    rfl

/-! ## The sum of the counts -/

theorem nextIndex_lt (index iter : Nat) : nextIndex index iter < CAPACITY :=
  Nat.mod_lt _ (by decide)

theorem lookupLoop_lt (t : Table) (key : List Byte) (len index p : Nat) :
    ∀ n iter cur, cur < CAPACITY → (lookupLoop t key len index n iter cur).2 = .ok p →
      p < CAPACITY
  | 0, _, _, _, h => by cases h
  | n + 1, iter, cur, hc, h => by
    by_cases h0 : (t cur).len = 0
    · rw [lookupLoop_empty _ _ _ _ _ _ _ h0] at h
      cases h
      exact hc
    · by_cases hm : (t cur).len = len ∧ memcmp (t cur).key key len = 0
      · rw [lookupLoop_match _ _ _ _ _ _ _ h0 hm] at h
        cases h
        exact hc
      · rw [lookupLoop_next _ _ _ _ _ _ _ h0 hm] at h
        exact lookupLoop_lt t key len index p n (iter + 1) _ (nextIndex_lt index iter) h

/-- The bucket returned by `lookup` is a bucket of the table. -/
theorem lookup_lt (t : Table) (key : List Byte) (p : Nat) (h : (lookup t key).2 = .ok p) :
    p < CAPACITY := by
  have hk := lookup_ok_le t key p h
  rw [lookup_le t key hk] at h
  exact lookupLoop_lt t key _ _ p 64 0 _ (Nat.mod_lt _ (by decide)) h

/-- The function `lookup` changes no count. -/
theorem lookup_val (t : Table) (key : List Byte) (i : Nat) :
    ((lookup t key).1 i).val = (t i).val := by
  rw [lookup_fst]
  cases (lookup t key).2 with
  | error f => rfl
  | ok p =>
    by_cases h0 : (t p).len = 0
    · simp only [h0, if_true]
      by_cases hip : i = p
      · rw [hip, setBucket_same, claim_val]
      · rw [setBucket_other _ _ _ _ hip]
    · simp only [h0, if_false]

theorem sum_succ_at (f g : Nat → Nat) (n p : Nat) (hp : p < n) (hg : g p = f p + 1)
    (ho : ∀ i, i ≠ p → g i = f i) :
    (Finset.range n).sum g = (Finset.range n).sum f + 1 := by
  have hm : p ∈ Finset.range n := Finset.mem_range.2 hp
  rw [← Finset.add_sum_erase _ g hm, ← Finset.add_sum_erase _ f hm, hg]
  have : ((Finset.range n).erase p).sum g = ((Finset.range n).erase p).sum f :=
    Finset.sum_congr rfl (fun i hi => ho i (Finset.ne_of_mem_erase hi))
  rw [this, Nat.add_right_comm]

/-- One more token counted: the invariant of the counts is kept. -/
theorem countSum_insertToken (t : Table) (lcs : List Byte) (k : Nat) (hne : lcs ≠ [])
    (hk : k + 1 < 2 ^ 32) (hJ : CountSum t k) (hok : (insertToken t lcs).2 = .ok ()) :
    CountSum (insertToken t lcs).1 (k + 1) := by
  obtain ⟨p, hp, ht⟩ := insertToken_success t lcs hok
  obtain ⟨hsum, hocc, hemp, hout⟩ := hJ
  have hpl := lookup_lt t lcs p hp
  have hpo := (lookup_holds t lcs p hne hp).1
  have hle : (t p).val ≤ k := by
    rw [← hsum]
    exact Finset.single_le_sum (f := fun i => (t i).val) (fun _ _ => Nat.zero_le _)
      (Finset.mem_range.2 hpl)
  have hvp : ((insertToken t lcs).1 p).val = (t p).val + 1 := by
    rw [ht, increment_val, lookup_val]
    unfold u32
    omega
  have hvo : ∀ i, i ≠ p → (insertToken t lcs).1 i = t i := by
    intro i hi
    rw [ht, increment_other _ p i hi, lookup_other t lcs p i hp hi]
  have hlen : ∀ i, ((insertToken t lcs).1 i).len = ((lookup t lcs).1 i).len := by
    intro i
    rw [ht, increment_len]
  refine ⟨?_, fun i hi => ?_, fun i hi => ?_, fun i hi => ?_⟩
  · rw [← hsum]
    exact sum_succ_at (fun i => (t i).val) (fun i => ((insertToken t lcs).1 i).val) CAPACITY p
      hpl hvp (fun i hi => by show ((insertToken t lcs).1 i).val = (t i).val; rw [hvo i hi])
  · by_cases hip : i = p
    · rw [hip, hvp]
      omega
    · rw [hvo i hip] at hi ⊢
      exact hocc i hi
  · have hip : i ≠ p := by
      intro e
      rw [e, hlen] at hi
      exact hpo hi
    rw [hvo i hip] at hi ⊢
    exact hemp i hi
  · have hip : i ≠ p := by omega
    rw [hvo i hip]
    exact hout i hi

/-- A successful `parseToken` is a successful `insertToken` of the lower-cased
token. -/
theorem parseToken_success (unlikely : Nat → Nat) (t : Table) (tok : List Byte)
    (h : (parseToken unlikely t tok).2 = .ok ()) :
    ∃ lcs, lowerAll tok = .ok lcs ∧ parseToken unlikely t tok = insertToken t lcs := by
  by_cases hg : unlikely tok.length > KEY_SIZE
  · rw [parseToken_guard unlikely t tok hg] at h
    cases h
  · by_cases hs : tok.length > STACK_SIZE
    · rw [parseToken_stack unlikely t tok hg hs] at h
      cases h
    · rw [parseToken_body unlikely t tok hg hs] at h ⊢
      cases hl : lowerAll tok with
      | error f =>
        rw [hl] at h
        cases h
      | ok lcs => exact ⟨lcs, rfl, rfl⟩

theorem countSum_parseAll (unlikely : Nat → Nat) :
    ∀ (toks : List (List Byte)) (t : Table) (k : Nat), (∀ tok ∈ toks, tok ≠ []) →
      k + toks.length < 2 ^ 32 → CountSum t k → (parseAll unlikely t toks).2 = .ok () →
      CountSum (parseAll unlikely t toks).1 (k + toks.length)
  | [], _, _, _, _, hJ, _ => hJ
  | tok :: rest, t, k, hne, hk, hJ, hok => by
    rw [List.length_cons] at hk
    cases hs : (parseToken unlikely t tok).2 with
    | error f =>
      rw [parseAll_cons_error unlikely t tok rest f hs] at hok
      cases hok
    | ok u =>
      cases u
      rw [parseAll_cons_ok unlikely t tok rest hs] at hok ⊢
      obtain ⟨lcs, hl, he⟩ := parseToken_success unlikely t tok hs
      have hlne : lcs ≠ [] := by
        intro e
        have := lowerAll_length tok lcs hl
        rw [e] at this
        exact hne tok (List.mem_cons_self tok rest) (List.length_eq_zero.1 this.symm)
      rw [he] at hs hok ⊢
      have h1 := countSum_insertToken t lcs k hlne (by omega) hJ hs
      have h2 := countSum_parseAll unlikely rest (insertToken t lcs).1 (k + 1)
        (fun x hx => hne x (List.mem_cons_of_mem tok hx)) (by omega) h1 hok
      rw [List.length_cons]
      have e : k + (rest.length + 1) = k + 1 + rest.length := by omega
      rw [e]
      exact h2

theorem countSum_table : CountSum table 0 := by
  refine ⟨Finset.sum_eq_zero (fun i _ => rfl), fun i hi => absurd rfl hi, fun i _ => rfl,
    fun i _ => rfl⟩

/-- C19: after a run of `parseToken` on fewer than `2^32` non-empty tokens from the
all-empty table in which no call fails, the counts of the buckets of the table
sum to the number of tokens, every occupied bucket has count at least 1 and every
empty bucket has count 0. -/
theorem counts_sum_to_tokens (unlikely : Nat → Nat) (toks : List (List Byte))
    (hne : ∀ tok ∈ toks, tok ≠ []) (hlt : toks.length < 2 ^ 32)
    (hok : (parseAll unlikely table toks).2 = .ok ()) :
    (Finset.range CAPACITY).sum (fun i => ((parseAll unlikely table toks).1 i).val) =
      toks.length ∧
    (∀ i, ((parseAll unlikely table toks).1 i).len ≠ 0 →
      1 ≤ ((parseAll unlikely table toks).1 i).val) ∧
    (∀ i, ((parseAll unlikely table toks).1 i).len = 0 →
      ((parseAll unlikely table toks).1 i).val = 0) ∧
    (∀ i, CAPACITY ≤ i → ((parseAll unlikely table toks).1 i).len = 0) := by
  have h := countSum_parseAll unlikely toks table 0 hne (by omega) countSum_table hok
  rw [Nat.zero_add] at h
  exact h

/-- C19, at the tokens of the text `The quick brown fox the Quick`. -/
theorem counts_sum_to_tokens_witness :
    (∀ tok ∈ tokens exampleText, tok ≠ []) ∧ (tokens exampleText).length < 2 ^ 32 ∧
    (parseAll id table (tokens exampleText)).2 = .ok () ∧
    ((Finset.range CAPACITY).sum
        (fun i => ((parseAll id table (tokens exampleText)).1 i).val) =
      (tokens exampleText).length ∧
    (∀ i, ((parseAll id table (tokens exampleText)).1 i).len ≠ 0 →
      1 ≤ ((parseAll id table (tokens exampleText)).1 i).val) ∧
    (∀ i, ((parseAll id table (tokens exampleText)).1 i).len = 0 →
      ((parseAll id table (tokens exampleText)).1 i).val = 0) ∧
    (∀ i, CAPACITY ≤ i → ((parseAll id table (tokens exampleText)).1 i).len = 0)) :=
  have h1 : ∀ tok ∈ tokens exampleText, tok ≠ [] := by
    rw [exampleText_tokens]
    decide
  have h2 : (tokens exampleText).length < 2 ^ 32 := by
    rw [exampleText_tokens]
    decide
  have h3 : (parseAll id table (tokens exampleText)).2 = .ok () := by decide
  ⟨h1, h2, h3, counts_sum_to_tokens id (tokens exampleText) h1 h2 h3⟩

/-! ## The key of length 0 -/

theorem claim_empty (b : Bucket) (h : b.len = 0) : claim b [] 0 = b := by
  cases b with
  | mk val len key =>
    simp only at h
    simp [claim, memcpy, h]

theorem setBucket_self (t : Table) (p : Nat) : setBucket t p (t p) = t := by
  funext i
  unfold setBucket
  split_ifs with h
  · rw [h]
  · rfl

/-- With the key of length 0 the loop of `lookup` returns the first empty bucket
that it examines. -/
theorem lookupLoop_first_empty (t : Table) (index p : Nat) :
    ∀ n iter, (lookupLoop t [] 0 index n iter (examined index iter)).2 = .ok p →
      ∃ a, iter ≤ a ∧ a < iter + n ∧ p = examined index a ∧ (t p).len = 0 ∧
        ∀ b, iter ≤ b → b < a → (t (examined index b)).len ≠ 0
  | 0, _, h => by cases h
  | n + 1, iter, h => by
    by_cases h0 : (t (examined index iter)).len = 0
    · rw [lookupLoop_empty _ _ _ _ _ _ _ h0] at h
      cases h
      exact ⟨iter, le_refl _, by omega, rfl, h0, fun b h1 h2 => by omega⟩
    · have hm : ¬ ((t (examined index iter)).len = 0 ∧
          memcmp (t (examined index iter)).key [] 0 = 0) := fun hm => h0 hm.1
      rw [lookupLoop_next _ _ _ _ _ _ _ h0 hm] at h
      have e : nextIndex index iter = examined index (iter + 1) := rfl
      rw [e] at h
      obtain ⟨a, h1, h2, h3, h4, h5⟩ := lookupLoop_first_empty t index p n (iter + 1) h
      refine ⟨a, by omega, by omega, h3, h4, fun b hb1 hb2 => ?_⟩
      by_cases hb : b = iter
      · rw [hb]
        exact h0
      · exact h5 b (by omega) hb2

/-- C20: for every table, `lookup` with the key of length 0 leaves the table
unchanged. Its home index is `hash(empty) mod CAPACITY = 0`; it returns the first
empty bucket among the 64 buckets it examines, or fails with `ENOMEM` when all of
them are occupied; the returned bucket still has length 0, every later `lookup`
behaves as if the call had not been made, and a later `lookup` of a non-empty key
that returns the same bucket claims it for that key. -/
theorem lookup_empty_key (t : Table) :
    hash [] % CAPACITY = 0 ∧
    (lookup t []).1 = t ∧
    (∀ p, (lookup t []).2 = .ok p →
      (t p).len = 0 ∧ ((lookup t []).1 p).len = 0 ∧
      ∃ a, a < 64 ∧ p = examined 0 a ∧ ∀ b, b < a → (t (examined 0 b)).len ≠ 0) ∧
    ((lookup t []).2 = .error .enomem ↔ ∀ a, a < 64 → (t (examined 0 a)).len ≠ 0) ∧
    (∀ f, (lookup t []).2 = .error f → f = .enomem) ∧
    (∀ key, lookup (lookup t []).1 key = lookup t key) ∧
    (∀ key p, key ≠ [] → (lookup t []).2 = .ok p → (lookup (lookup t []).1 key).2 = .ok p →
      Holds ((lookup (lookup t []).1 key).1 p) key) := by
  have hh : hash [] % CAPACITY = 0 := by decide
  have hk : ([] : List Byte).length ≤ KEY_SIZE := by decide
  have hloop : lookup t [] = lookupLoop t [] 0 0 64 0 (examined 0 0) := by
    rw [lookup_le t [] hk, hh]
    rfl
  have hfirst : ∀ p, (lookup t []).2 = .ok p →
      (t p).len = 0 ∧ ∃ a, a < 64 ∧ p = examined 0 a ∧
        ∀ b, b < a → (t (examined 0 b)).len ≠ 0 := by
    intro p hp
    rw [hloop] at hp
    obtain ⟨a, _, h2, h3, h4, h5⟩ := lookupLoop_first_empty t 0 p 64 0 hp
    exact ⟨h4, a, by omega, h3, fun b hb => h5 b (Nat.zero_le b) hb⟩
  have hsame : (lookup t []).1 = t := by
    rw [lookup_fst]
    cases hr : (lookup t []).2 with
    | error f => rfl
    | ok p =>
      have h0 := (hfirst p hr).1
      simp only [h0, if_true, List.length_nil]
      rw [claim_empty (t p) h0, setBucket_self]
  refine ⟨hh, hsame, fun p hp => ?_, ?_, fun f hf => ?_, fun key => by rw [hsame],
    fun key p hne _ hp => (lookup_holds _ key p hne hp).2⟩
  · obtain ⟨h0, ha⟩ := hfirst p hp
    refine ⟨h0, ?_, ha⟩
    rw [hsame]
    exact h0
  · rw [hloop, lookupLoop_enomem_iff t [] 0 0 64 0]
    constructor
    · intro h a ha
      exact (h a (Nat.zero_le a) (by omega)).1
    · intro h a _ ha
      exact ⟨h a (by omega), fun hm => h a (by omega) hm.1⟩
  · rw [hloop] at hf
    exact lookupLoop_error t [] _ _ f 64 0 _ hf

/-- The key of length 0 and then the key `kmgp`, whose home index is 0, from the
all-empty table: both calls of `lookup` return bucket 0, which then stores `kmgp`. -/
theorem lookup_empty_key_then_kmgp :
    (lookup table []).2 = .ok 0 ∧ ((lookup table []).1 0).len = 0 ∧
    (lookup (lookup table []).1 [107, 109, 103, 112]).2 = .ok 0 ∧
    Holds ((lookup (lookup table []).1 [107, 109, 103, 112]).1 0) [107, 109, 103, 112] := by
  refine ⟨by decide, by decide, by decide, by decide⟩

/-! ## The guard of `parseToken` -/

end Funclub
